import Mathlib

/-!
Verification of the heap-allocator subsystem of the abs-os kernel.

The development shallow-embeds the three allocation strategies of
`src/allocator` (bump, linked-list free-list, fixed-size block) as pure
Lean functions over `Nat` addresses.  Machine integers (`usize`, 64-bit)
are modelled as `Nat` with explicit `% 2 ^ 64` wrapping where the Rust
code can wrap, and the explicit `checked_add` tests of the code are kept
as explicit comparisons against `2 ^ 64 - 1`.  Rust panics (assertion
failures, `expect`, integer-underflow in checked builds) are modelled by
`Option`: `none` is a panic, `some` a normal return.  A returned null
pointer is a `none` *inside* the `some` result.

On x86_64 the free-list `ListNode { size: usize, next: Option<&mut ListNode> }`
has size 16 and alignment 8; the fixed-size-block `ListNode { next: ... }`
has size 8 and alignment 8.  Those constants appear literally below.
-/

/-- `align_up` from `src/allocator.rs`:
`(addr + align - 1) & !(align - 1)` on `usize`.  The sum is taken modulo
`2 ^ 64` (release-mode wrapping); `!(align - 1)` is
`(2 ^ 64 - 1) ^^^ (align - 1)`.  Faithful for `align ≥ 1` (Rust `Layout`
alignments are powers of two, hence nonzero). -/
def align_up (addr align : Nat) : Nat :=
  ((addr + align - 1) % (2 ^ 64)) &&& ((2 ^ 64 - 1) ^^^ (align - 1))

/-- A Rust `Layout`: the alignment is a power of two and at most `2 ^ 63`
(`Layout` stores alignments as valid powers of two fitting `usize`;
larger ones are rejected by `Layout::from_size_align`). -/
def ValidLayout (sz al : Nat) : Prop :=
  ∃ k, k ≤ 63 ∧ al = 2 ^ k

/-- `Layout::pad_to_align` (Rust std): round the size up to a multiple of
the alignment. -/
def pad_to_align (size align : Nat) : Nat :=
  (size + align - 1) / align * align

/-- A contiguous byte range `[addr, addr + size)` of the heap. -/
structure Region where
  addr : Nat
  size : Nat
deriving DecidableEq, Repr

/-- `ListNode::end_addr` (`src/allocator/linked_list.rs`): one past the
last byte of the region. -/
def Region.end_addr (r : Region) : Nat :=
  r.addr + r.size

/-- Two regions do not overlap: the intersection of `[a.addr, a.addr+a.size)`
and `[b.addr, b.addr+b.size)` is empty. -/
def RDisj (a b : Region) : Prop :=
  min (a.addr + a.size) (b.addr + b.size) ≤ max a.addr b.addr

instance : DecidablePred fun p : Region × Region => RDisj p.1 p.2 := by
  intro p; unfold RDisj; infer_instance

/-- `r'` is a subrange of `r`. -/
def SubR (r' r : Region) : Prop :=
  r.addr ≤ r'.addr ∧ r'.addr + r'.size ≤ r.addr + r.size

/-- The region lies inside the heap `[hs, he)`. -/
def inHeap (hs he : Nat) (r : Region) : Prop :=
  hs ≤ r.addr ∧ r.addr + r.size ≤ he

/-- All regions of the list lie in the heap and are pairwise disjoint. -/
def okList (hs he : Nat) (l : List Region) : Prop :=
  (∀ r ∈ l, inHeap hs he r) ∧ l.Pairwise RDisj

/-! ## Bump allocator, `src/allocator/bump.rs` -/

structure BumpAllocator where
  heap_start : Nat
  heap_end : Nat
  next : Nat
  allocations : Nat
deriving DecidableEq, Repr

/-- `BumpAllocator::new` followed by `init(heap_start, heap_size)`. -/
def BumpAllocator.init (heap_start heap_size : Nat) : BumpAllocator :=
  ⟨heap_start, heap_start + heap_size, heap_start, 0⟩

/-- `GlobalAlloc::alloc` for `Locked<BumpAllocator>`: align the cursor,
fail on `checked_add` overflow or heap exhaustion, otherwise advance the
cursor and count the allocation.  The returned pointer is `none` for the
code's null pointer; the state is returned unchanged on failure, exactly
as the code leaves it. -/
def BumpAllocator.alloc (b : BumpAllocator) (sz al : Nat) : Option Nat × BumpAllocator :=
  let alloc_start := align_up b.next al
  if alloc_start + sz ≤ 2 ^ 64 - 1 then
    let alloc_end := alloc_start + sz
    if b.heap_end < alloc_end then
      (none, b)
    else
      (some alloc_start, { b with next := alloc_end, allocations := b.allocations + 1 })
  else
    (none, b)

/-- `GlobalAlloc::dealloc` for `Locked<BumpAllocator>`: decrement the
allocation count (`none` models the checked-build underflow panic of
`allocations -= 1` at zero) and reset the cursor when it reaches zero.
The pointer and layout arguments are ignored by the code. -/
def BumpAllocator.dealloc (b : BumpAllocator) : Option BumpAllocator :=
  if b.allocations = 0 then
    none
  else
    let a := b.allocations - 1
    some { b with allocations := a, next := if a = 0 then b.heap_start else b.next }

/-! ## Linked-list allocator, `src/allocator/linked_list.rs`

The intrusive free list is modelled as the list of the free regions it
describes, in list order (the sentinel head is dropped).  `ListNode` has
size 16 and alignment 8. -/

/-- `LinkedListAllocator::add_free_region`: assert that the address is
node-aligned and the region can hold a node, then push the region at the
head of the list.  `none` models an assertion failure. -/
def add_free_region (addr size : Nat) (l : List Region) : Option (List Region) :=
  if align_up addr 8 = addr ∧ 16 ≤ size then
    some (⟨addr, size⟩ :: l)
  else
    none

/-- `LinkedListAllocator::init`: insert the whole heap as one region. -/
def llInit (heap_start heap_size : Nat) : Option (List Region) :=
  add_free_region heap_start heap_size []

/-- `LinkedListAllocator::alloc_from_region`: try to carve `size` bytes
aligned to `align` out of `region`; reject if the aligned start overflows
`checked_add`, does not fit, or would leave a nonzero excess smaller than
a `ListNode`. -/
def alloc_from_region (r : Region) (size align : Nat) : Option Nat :=
  let alloc_start := align_up r.addr align
  if alloc_start + size ≤ 2 ^ 64 - 1 then
    let alloc_end := alloc_start + size
    if r.end_addr < alloc_end then
      none
    else
      let excess_size := r.end_addr - alloc_end
      if 0 < excess_size ∧ excess_size < 16 then
        none
      else
        some alloc_start
  else
    none

/-- `LinkedListAllocator::find_region`: first-fit traversal from the
head; the accepted region is unlinked, the rest of the list keeps its
order. -/
def find_region (size align : Nat) : List Region → Option (Region × Nat × List Region)
  | [] => none
  | r :: rest =>
    match alloc_from_region r size align with
    | some alloc_start => some (r, alloc_start, rest)
    | none =>
      match find_region size align rest with
      | some (r', s', rest') => some (r', s', r :: rest')
      | none => none

/-- `LinkedListAllocator::size_align`: normalize a layout so the block
can later store a `ListNode`: alignment becomes `max align 8`
(`Layout::align_to`), the size is padded to that alignment
(`pad_to_align`) and raised to at least 16. -/
def size_align (sz al : Nat) : Nat × Nat :=
  let align := max al 8
  let size := max (pad_to_align sz align) 16
  (size, align)

/-- `GlobalAlloc::alloc` for `Locked<LinkedListAllocator>`: normalize the
layout, find a region first-fit, re-insert a nonzero excess as a new free
region, return the carved start.  Outer `none` is a panic
(`expect("overflow")` or an `add_free_region` assertion); inner `none` is
the null pointer. -/
def llAlloc (sz al : Nat) (l : List Region) : Option (Option Nat × List Region) :=
  let sa := size_align sz al
  match find_region sa.1 sa.2 l with
  | some (r, alloc_start, rest) =>
    if alloc_start + sa.1 ≤ 2 ^ 64 - 1 then
      let alloc_end := alloc_start + sa.1
      let excess_size := r.end_addr - alloc_end
      if 0 < excess_size then
        match add_free_region alloc_end excess_size rest with
        | some l' => some (some alloc_start, l')
        | none => none
      else
        some (some alloc_start, rest)
    else
      none
  | none => some (none, l)

/-- `GlobalAlloc::dealloc` for `Locked<LinkedListAllocator>`: re-derive
the normalized size and push the freed block as a free region. -/
def llDealloc (p sz al : Nat) (l : List Region) : Option (List Region) :=
  add_free_region p (size_align sz al).1 l

/-! ## Fixed-size block allocator, `src/allocator/fixed_size_block.rs` -/

/-- `BLOCK_SIZES` from `src/allocator/fixed_size_block.rs`. -/
def BLOCK_SIZES : List Nat := [8, 16, 32, 64, 128, 256, 512, 1024, 2048]

/-- `list_index`: index of the first (hence smallest, the sizes ascend)
block size at least `max size align`. -/
def list_index (sz al : Nat) : Option Nat :=
  let size := max sz al
  BLOCK_SIZES.findIdx? (fun s => decide (size ≤ s))

/-- State of `FixedSizeBlockAllocator`: one free list of block addresses
per size class (the intrusive nodes store only `next`, so a list of
addresses is the whole content), plus the fallback allocator.

Modelled from the spec: the fallback is the external
`linked_list_allocator::Heap` crate, whose source is not part of this
repository; per the spec (sections 2 and 3) it is "a free-list allocator
instance", so it is modelled as this repository's own free-list
allocator state, a `List Region`. -/
structure FixedSizeBlockAllocator where
  list_heads : List (List Nat)
  fallback_allocator : List Region
deriving DecidableEq, Repr

/-- `FixedSizeBlockAllocator::new` plus `init`: empty class lists, the
fallback initialized over the whole heap.

Modelled from the spec: `Heap::init` of the external crate is modelled as
the free-list strategy's `init` (spec section 4.3: one free node spanning
the whole region). -/
def fsInit (heap_start heap_size : Nat) : Option FixedSizeBlockAllocator :=
  (llInit heap_start heap_size).map
    (fun f => ⟨List.replicate BLOCK_SIZES.length [], f⟩)

/-- `GlobalAlloc::alloc` for `Locked<FixedSizeBlockAllocator>`: if a class
fits, pop its list head, or request one `(block_size, block_size)` block
from the fallback when the list is empty; with no fitting class, delegate
the original layout to the fallback.

Modelled from the spec: `fallback_alloc` calls the crate's
`allocate_first_fit`, modelled as this repository's free-list `alloc`
(`Layout::from_size_align(block_size, block_size)` cannot fail: the block
sizes are powers of two). -/
def fsAlloc (sz al : Nat) (a : FixedSizeBlockAllocator) :
    Option (Option Nat × FixedSizeBlockAllocator) :=
  match list_index sz al with
  | some index =>
    match a.list_heads.getD index [] with
    | node :: rest => some (some node, ⟨a.list_heads.set index rest, a.fallback_allocator⟩)
    | [] =>
      let block_size := BLOCK_SIZES.getD index 0
      match llAlloc block_size block_size a.fallback_allocator with
      | some (r, fb) => some (r, ⟨a.list_heads, fb⟩)
      | none => none
  | none =>
    match llAlloc sz al a.fallback_allocator with
    | some (r, fb) => some (r, ⟨a.list_heads, fb⟩)
    | none => none

/-- `GlobalAlloc::dealloc` for `Locked<FixedSizeBlockAllocator>`: if a
class fits, assert the class can hold the 8-byte / 8-aligned `ListNode`
(two asserts in the code) and push the block; otherwise hand the pointer
(`NonNull::new(ptr).unwrap()`: `none` at null) to the fallback.

Modelled from the spec: the crate's `deallocate` is modelled as this
repository's free-list `dealloc`. -/
def fsDealloc (p sz al : Nat) (a : FixedSizeBlockAllocator) :
    Option FixedSizeBlockAllocator :=
  match list_index sz al with
  | some index =>
    if 8 ≤ BLOCK_SIZES.getD index 0 ∧ 8 ≤ BLOCK_SIZES.getD index 0 then
      some ⟨a.list_heads.set index (p :: a.list_heads.getD index []), a.fallback_allocator⟩
    else
      none
  | none =>
    if p = 0 then
      none
    else
      (llDealloc p sz al a.fallback_allocator).map (fun fb => ⟨a.list_heads, fb⟩)

/-! ## Trace semantics

A test driver issues `alloc`/`free` calls.  A ghost list of outstanding
grants enforces the caller discipline of the claims: `free` is accepted
only for a pointer previously granted, with the layout it was granted
with, and each grant can be freed once (`List.erase` removes one
occurrence).  A trace step returns `none` when the discipline is violated
or the allocator panics. -/

inductive Op where
  | alloc : Nat → Nat → Op
  | free : Nat → Nat → Nat → Op
deriving DecidableEq, Repr

/-- A live allocation as the caller sees it: granted address and the
layout supplied at allocation time. -/
structure Grant where
  ptr : Nat
  sz : Nat
  al : Nat
deriving DecidableEq, Repr

/-- The layout of the request an `Op` carries. -/
def ValidOp : Op → Prop
  | .alloc sz al => ValidLayout sz al
  | .free _ sz al => ValidLayout sz al

/-- Run a list of operations, stopping at the first failed step. -/
def runOps {σ : Type} (step : σ → Op → Option σ) : σ → List Op → Option σ
  | s, [] => some s
  | s, op :: ops =>
    match step s op with
    | some s' => runOps step s' ops
    | none => none

/-- The byte range the caller may use: address and requested size. -/
def userRegion (g : Grant) : Region :=
  ⟨g.ptr, g.sz⟩

/-! ### Bump traces -/

structure BumpTr where
  b : BumpAllocator
  live : List Grant
deriving DecidableEq, Repr

def stepBump (tr : BumpTr) : Op → Option BumpTr
  | .alloc sz al =>
    match BumpAllocator.alloc tr.b sz al with
    | (some p, b') => some ⟨b', ⟨p, sz, al⟩ :: tr.live⟩
    | (none, b') => some ⟨b', tr.live⟩
  | .free p sz al =>
    if (⟨p, sz, al⟩ : Grant) ∈ tr.live then
      (BumpAllocator.dealloc tr.b).map (fun b' => ⟨b', tr.live.erase ⟨p, sz, al⟩⟩)
    else
      none

/-- Invariant of reachable bump-trace states: the heap configuration is
sane, every grant ends at or before the cursor, grants are pairwise
disjoint, and the allocation counter equals the number of outstanding
grants. -/
def InvBump (tr : BumpTr) : Prop :=
  tr.b.heap_end ≤ 2 ^ 63 ∧
  tr.b.heap_start ≤ tr.b.next ∧
  tr.b.next ≤ tr.b.heap_end ∧
  (∀ g ∈ tr.live, g.ptr + g.sz ≤ tr.b.next ∧ tr.b.heap_start ≤ g.ptr) ∧
  (tr.live.map userRegion).Pairwise RDisj ∧
  tr.b.allocations = tr.live.length

/-! ### Linked-list traces -/

structure LLTr where
  free : List Region
  live : List Grant
deriving DecidableEq, Repr

/-- The bytes a free-list grant occupies: the normalized size starting at
the granted address. -/
def occLL (g : Grant) : Region :=
  ⟨g.ptr, (size_align g.sz g.al).1⟩

def stepLL (tr : LLTr) : Op → Option LLTr
  | .alloc sz al =>
    match llAlloc sz al tr.free with
    | some (some p, f') => some ⟨f', ⟨p, sz, al⟩ :: tr.live⟩
    | some (none, f') => some ⟨f', tr.live⟩
    | none => none
  | .free p sz al =>
    if (⟨p, sz, al⟩ : Grant) ∈ tr.live then
      match llDealloc p sz al tr.free with
      | some f' => some ⟨f', tr.live.erase ⟨p, sz, al⟩⟩
      | none => none
    else
      none

/-- Invariant of reachable free-list trace states: free regions and the
occupied ranges of the outstanding grants all lie in the heap and are
pairwise disjoint, and every granted pointer is node-aligned. -/
def InvLL (hs he : Nat) (tr : LLTr) : Prop :=
  okList hs he (tr.free ++ tr.live.map occLL) ∧ ∀ g ∈ tr.live, 8 ∣ g.ptr

/-! ### Fixed-size-block traces -/

structure FSTr where
  s : FixedSizeBlockAllocator
  live : List Grant
deriving DecidableEq, Repr

def stepFS (tr : FSTr) : Op → Option FSTr
  | .alloc sz al =>
    match fsAlloc sz al tr.s with
    | some (some p, s') => some ⟨s', ⟨p, sz, al⟩ :: tr.live⟩
    | some (none, s') => some ⟨s', tr.live⟩
    | none => none
  | .free p sz al =>
    if (⟨p, sz, al⟩ : Grant) ∈ tr.live then
      (fsDealloc p sz al tr.s).map (fun s' => ⟨s', tr.live.erase ⟨p, sz, al⟩⟩)
    else
      none

/-- The regions held by the class free lists: a block in class `i`
occupies one block size of class `i`. -/
def classRegions (heads : List (List Nat)) : List Region :=
  (List.range BLOCK_SIZES.length).flatMap
    (fun i => (heads.getD i []).map (fun b => ⟨b, BLOCK_SIZES.getD i 0⟩))

/-- The bytes a fixed-size-block grant occupies: its class block, or the
fallback's normalized block for a class-less request. -/
def occFS (g : Grant) : Region :=
  match list_index g.sz g.al with
  | some i => ⟨g.ptr, BLOCK_SIZES.getD i 0⟩
  | none => ⟨g.ptr, (size_align g.sz g.al).1⟩

/-- A grant's address carries the alignment its path guarantees: the
class block size on the class path, node alignment on the fallback path. -/
def grantAligned (g : Grant) : Prop :=
  match list_index g.sz g.al with
  | some i => BLOCK_SIZES.getD i 0 ∣ g.ptr
  | none => (size_align g.sz g.al).2 ∣ g.ptr

/-- All regions the fixed-size-block allocator state accounts for:
fallback free regions, class-list blocks, occupied grants. -/
def combinedFS (tr : FSTr) : List Region :=
  tr.s.fallback_allocator ++ (classRegions tr.s.list_heads ++ tr.live.map occFS)

/-- Invariant of reachable fixed-size-block trace states. -/
def InvFS (hs he : Nat) (tr : FSTr) : Prop :=
  okList hs he (combinedFS tr) ∧
  (∀ i, ∀ b ∈ tr.s.list_heads.getD i [], BLOCK_SIZES.getD i 0 ∣ b) ∧
  (∀ g ∈ tr.live, grantAligned g) ∧
  tr.s.list_heads.length = BLOCK_SIZES.length

/-! ### Iterations for the collective-reclaim and round-trip claims -/

/-- Perform the allocations of `layouts` in order, requiring every one to
succeed. -/
def bumpAllocN : List (Nat × Nat) → BumpAllocator → Option BumpAllocator
  | [], b => some b
  | (sz, al) :: rest, b =>
    match BumpAllocator.alloc b sz al with
    | (some _, b') => bumpAllocN rest b'
    | (none, _) => none

/-- Perform `n` deallocations. -/
def bumpDeallocN : Nat → BumpAllocator → Option BumpAllocator
  | 0, b => some b
  | n + 1, b =>
    match BumpAllocator.dealloc b with
    | some b' => bumpDeallocN n b'
    | none => none

/-- One allocate-then-free round of the size-classed allocator: allocate
`(sz, al)`, require success, free the granted pointer with the same
layout. -/
def fsRound (sz al : Nat) (a : FixedSizeBlockAllocator) : Option FixedSizeBlockAllocator :=
  match fsAlloc sz al a with
  | some (some p, a1) => fsDealloc p sz al a1
  | _ => none

/-- `n` allocate-then-free rounds. -/
def fsRounds (sz al : Nat) : Nat → FixedSizeBlockAllocator → Option FixedSizeBlockAllocator
  | 0, a => some a
  | n + 1, a =>
    match fsRound sz al a with
    | some a' => fsRounds sz al n a'
    | none => none

/-! ## Arithmetic facts about rounding and `align_up` -/

lemma roundUp_ge (a b : Nat) (hb : 0 < b) : a ≤ (a + b - 1) / b * b := by
  have h1 := Nat.div_add_mod (a + b - 1) b
  have h2 : (a + b - 1) % b < b := Nat.mod_lt _ hb
  have h3 : (a + b - 1) / b * b = b * ((a + b - 1) / b) := Nat.mul_comm _ _
  omega

lemma roundUp_le (a b : Nat) : (a + b - 1) / b * b ≤ a + b - 1 :=
  Nat.div_mul_le_self _ _

lemma dvd_div_mul (x b : Nat) : b ∣ x / b * b :=
  ⟨x / b, Nat.mul_comm _ _⟩

lemma roundUp_eq_self (a b : Nat) (hb : 0 < b) (h : b ∣ a) : (a + b - 1) / b * b = a := by
  obtain ⟨c, rfl⟩ := h
  have h1 : b * c + b - 1 = b * c + (b - 1) := by omega
  rw [h1, Nat.mul_add_div hb, Nat.div_eq_of_lt (by omega), Nat.add_zero, Nat.mul_comm]

lemma testBit_mask (n k i : Nat) (hk : k ≤ n) :
    (2 ^ n - 2 ^ k).testBit i = (decide (k ≤ i) && decide (i < n)) := by
  have h : 2 ^ n - 2 ^ k = (2 ^ (n - k) - 1) <<< k := by
    rw [Nat.shiftLeft_eq, Nat.sub_mul, Nat.one_mul, ← Nat.pow_add]
    congr 2
    omega
  rw [h, Nat.testBit_shiftLeft, Nat.testBit_two_pow_sub_one]
  by_cases h1 : k ≤ i <;> by_cases h2 : i < n <;>
    simp [h1, h2, ge_iff_le] <;> omega

lemma xor_ones (n k : Nat) (hk : k ≤ n) : (2 ^ n - 1) ^^^ (2 ^ k - 1) = 2 ^ n - 2 ^ k := by
  apply Nat.eq_of_testBit_eq
  intro i
  rw [Nat.testBit_xor, Nat.testBit_two_pow_sub_one, Nat.testBit_two_pow_sub_one,
    testBit_mask n k i hk]
  by_cases h1 : i < k <;> by_cases h2 : i < n <;> simp [h1, h2] <;> omega

lemma land_mask (x n k : Nat) (hx : x < 2 ^ n) (hk : k ≤ n) :
    x &&& (2 ^ n - 2 ^ k) = x / 2 ^ k * 2 ^ k := by
  apply Nat.eq_of_testBit_eq
  intro i
  rw [Nat.testBit_land, testBit_mask n k i hk]
  have hr : x / 2 ^ k * 2 ^ k = (x >>> k) <<< k := by
    rw [Nat.shiftLeft_eq, Nat.shiftRight_eq_div_pow]
  rw [hr, Nat.testBit_shiftLeft, Nat.testBit_shiftRight]
  by_cases h1 : k ≤ i
  · have hik : k + (i - k) = i := by omega
    by_cases h2 : i < n
    · simp [h1, h2, ge_iff_le, hik]
    · have hxi : x.testBit i = false :=
        Nat.testBit_lt_two_pow
          (lt_of_lt_of_le hx (Nat.pow_le_pow_right (by norm_num) (le_of_not_lt h2)))
      simp [h1, h2, ge_iff_le, hik, hxi]
  · simp [h1, ge_iff_le]

lemma align_up_eq (addr k : Nat) (hk : k ≤ 64) :
    align_up addr (2 ^ k) = ((addr + 2 ^ k - 1) % 2 ^ 64) / 2 ^ k * 2 ^ k := by
  unfold align_up
  rw [xor_ones 64 k hk, land_mask _ 64 k (Nat.mod_lt _ (by positivity)) hk]

lemma align_up_dvd (addr k : Nat) (hk : k ≤ 64) : 2 ^ k ∣ align_up addr (2 ^ k) := by
  rw [align_up_eq addr k hk]
  exact dvd_div_mul _ _

lemma align_up_no_wrap (addr k : Nat) (hk : k ≤ 64) (h : addr + 2 ^ k ≤ 2 ^ 64) :
    align_up addr (2 ^ k) = (addr + 2 ^ k - 1) / 2 ^ k * 2 ^ k := by
  have hp : 0 < 2 ^ k := Nat.two_pow_pos k
  rw [align_up_eq addr k hk, Nat.mod_eq_of_lt (by omega)]

lemma align_up_ge (addr k : Nat) (hk : k ≤ 64) (h : addr + 2 ^ k ≤ 2 ^ 64) :
    addr ≤ align_up addr (2 ^ k) := by
  rw [align_up_no_wrap addr k hk h]
  exact roundUp_ge addr _ (Nat.two_pow_pos k)

lemma align_up_lt (addr k : Nat) (hk : k ≤ 64) (h : addr + 2 ^ k ≤ 2 ^ 64) :
    align_up addr (2 ^ k) < addr + 2 ^ k := by
  have hp : 0 < 2 ^ k := Nat.two_pow_pos k
  have := roundUp_le addr (2 ^ k)
  rw [align_up_no_wrap addr k hk h]
  omega

lemma align_up_eq_self (addr k : Nat) (hk : k ≤ 64) (h : addr + 2 ^ k ≤ 2 ^ 64)
    (hd : 2 ^ k ∣ addr) : align_up addr (2 ^ k) = addr := by
  rw [align_up_no_wrap addr k hk h]
  exact roundUp_eq_self addr _ (Nat.two_pow_pos k) hd

lemma max_pow_two (k : Nat) : max (2 ^ k) 8 = 2 ^ max k 3 := by
  rcases Nat.le_total k 3 with h | h
  · have h2 : 2 ^ k ≤ 8 := by
      calc 2 ^ k ≤ 2 ^ 3 := Nat.pow_le_pow_right (by norm_num) h
        _ = 8 := by norm_num
    rw [Nat.max_eq_right h2, Nat.max_eq_right h]
    norm_num
  · have h2 : 8 ≤ 2 ^ k := by
      calc (8 : Nat) = 2 ^ 3 := by norm_num
        _ ≤ 2 ^ k := Nat.pow_le_pow_right (by norm_num) h
    rw [Nat.max_eq_left h2, Nat.max_eq_left h]

/-- The normalized alignment of a valid layout is `2 ^ max k 3`. -/
lemma size_align_align (sz al k : Nat) (hk : k ≤ 63) (hal : al = 2 ^ k) :
    (size_align sz al).2 = 2 ^ max k 3 ∧ max k 3 ≤ 63 := by
  subst hal
  refine ⟨?_, by omega⟩
  show max (2 ^ k) 8 = 2 ^ max k 3
  exact max_pow_two k

lemma dvd_max (d a b : Nat) (ha : d ∣ a) (hb : d ∣ b) : d ∣ max a b := by
  rcases Nat.le_total a b with h | h
  · rwa [Nat.max_eq_right h]
  · rwa [Nat.max_eq_left h]

/-- The normalized size of a power-of-two-aligned layout is at least the
requested size, at least 16, and divisible by 8. -/
lemma size_align_size (sz al k : Nat) (hal : al = 2 ^ k) :
    sz ≤ (size_align sz al).1 ∧ 16 ≤ (size_align sz al).1 ∧ 8 ∣ (size_align sz al).1 := by
  subst hal
  have h8 : 0 < max (2 ^ k) 8 := Nat.lt_of_lt_of_le (by norm_num) (Nat.le_max_right _ 8)
  have hge : sz ≤ pad_to_align sz (max (2 ^ k) 8) := roundUp_ge sz _ h8
  have hd8 : (8 : Nat) ∣ max (2 ^ k) 8 := by
    rw [max_pow_two k]
    have h83 : (8 : Nat) = 2 ^ 3 := by norm_num
    rw [h83]
    exact Nat.pow_dvd_pow 2 (Nat.le_max_right k 3)
  have hdp : (8 : Nat) ∣ pad_to_align sz (max (2 ^ k) 8) :=
    dvd_trans hd8 (dvd_div_mul _ _)
  simp only [size_align]
  refine ⟨?_, Nat.le_max_right _ _, dvd_max 8 _ _ hdp (by norm_num)⟩
  calc sz ≤ pad_to_align sz (max (2 ^ k) 8) := hge
    _ ≤ max (pad_to_align sz (max (2 ^ k) 8)) 16 := Nat.le_max_left _ _

/-! ## Region-list machinery -/

lemma RDisj_symm {a b : Region} (h : RDisj a b) : RDisj b a := by
  unfold RDisj at h ⊢
  omega

lemma SubR_RDisj {r' r x : Region} (hs : SubR r' r) (h : RDisj r x) : RDisj r' x := by
  unfold SubR at hs
  unfold RDisj at h ⊢
  omega

lemma SubR_inHeap {hs he : Nat} {r' r : Region} (h : SubR r' r) (hh : inHeap hs he r) :
    inHeap hs he r' := by
  unfold SubR at h
  unfold inHeap at hh ⊢
  omega

lemma okList_perm {hs he : Nat} {l l' : List Region} (hp : l.Perm l')
    (h : okList hs he l) : okList hs he l' := by
  obtain ⟨hin, hpw⟩ := h
  exact ⟨fun r hr => hin r (hp.mem_iff.mpr hr),
    (List.Perm.pairwise_iff (fun hab => RDisj_symm hab) hp).mp hpw⟩

lemma okList_cons_iff {hs he : Nat} {r : Region} {l : List Region} :
    okList hs he (r :: l) ↔ inHeap hs he r ∧ (∀ x ∈ l, RDisj r x) ∧ okList hs he l := by
  unfold okList
  rw [List.pairwise_cons]
  constructor
  · rintro ⟨hin, hd, hpw⟩
    exact ⟨hin r (by simp), hd, fun x hx => hin x (by simp [hx]), hpw⟩
  · rintro ⟨hr, hd, hin, hpw⟩
    refine ⟨?_, hd, hpw⟩
    intro x hx
    rcases List.mem_cons.mp hx with h | h
    · subst h; exact hr
    · exact hin x h

lemma okList_sublist {hs he : Nat} {l l' : List Region} (hsub : l'.Sublist l)
    (h : okList hs he l) : okList hs he l' :=
  ⟨fun r hr => h.1 r (hsub.subset hr), h.2.sublist hsub⟩

lemma okList_sub_head {hs he : Nat} {r r' : Region} {l : List Region}
    (h : okList hs he (r :: l)) (hsub : SubR r' r) : okList hs he (r' :: l) := by
  rw [okList_cons_iff] at h ⊢
  exact ⟨SubR_inHeap hsub h.1, fun x hx => SubR_RDisj hsub (h.2.1 x hx), h.2.2⟩

lemma okList_split2 {hs he : Nat} {r r1 r2 : Region} {l : List Region}
    (h : okList hs he (r :: l)) (h1 : SubR r1 r) (h2 : SubR r2 r) (h12 : RDisj r1 r2) :
    okList hs he (r1 :: r2 :: l) := by
  rw [okList_cons_iff] at h ⊢
  rw [okList_cons_iff]
  refine ⟨SubR_inHeap h1 h.1, ?_, SubR_inHeap h2 h.1,
    fun x hx => SubR_RDisj h2 (h.2.1 x hx), h.2.2⟩
  intro x hx
  rcases List.mem_cons.mp hx with hx | hx
  · subst hx; exact h12
  · exact SubR_RDisj h1 (h.2.1 x hx)

/-! ## Characterization of the free-list search -/

lemma add_free_region_some {addr size : Nat} {l l' : List Region}
    (h : add_free_region addr size l = some l') :
    l' = ⟨addr, size⟩ :: l ∧ align_up addr 8 = addr ∧ 16 ≤ size := by
  unfold add_free_region at h
  split_ifs at h with hc
  · exact ⟨(Option.some.injEq _ _).mp h |>.symm, hc.1, hc.2⟩

lemma add_free_region_of {addr size : Nat} (l : List Region)
    (h1 : align_up addr 8 = addr) (h2 : 16 ≤ size) :
    add_free_region addr size l = some (⟨addr, size⟩ :: l) := by
  unfold add_free_region
  rw [if_pos ⟨h1, h2⟩]

lemma alloc_from_region_some {r : Region} {size align s : Nat} :
    alloc_from_region r size align = some s ↔
      s = align_up r.addr align ∧
      align_up r.addr align + size ≤ 2 ^ 64 - 1 ∧
      align_up r.addr align + size ≤ r.end_addr ∧
      (r.end_addr - (align_up r.addr align + size) = 0 ∨
        16 ≤ r.end_addr - (align_up r.addr align + size)) := by
  simp only [alloc_from_region]
  split_ifs with h1 h2 h3
  · simp only [reduceCtorEq, false_iff]  -- r.end_addr < alloc_end, result none
    omega
  · simp only [reduceCtorEq, false_iff]  -- excess in (0, 16), result none
    omega
  · simp only [Option.some.injEq]
    constructor
    · intro h
      exact ⟨h.symm, h1, by omega, by omega⟩
    · intro h
      exact h.1.symm
  · simp only [reduceCtorEq, false_iff]  -- checked_add overflow
    omega

lemma find_region_some {size align : Nat} :
    ∀ {l : List Region} {r : Region} {s : Nat} {rest : List Region},
      find_region size align l = some (r, s, rest) →
      ∃ l1 l2, l = l1 ++ r :: l2 ∧ rest = l1 ++ l2 ∧
        (∀ x ∈ l1, alloc_from_region x size align = none) ∧
        alloc_from_region r size align = some s := by
  intro l
  induction l with
  | nil => intro r s rest h; exact absurd h (by simp [find_region])
  | cons r0 tail ih =>
    intro r s rest h
    unfold find_region at h
    cases hafr : alloc_from_region r0 size align with
    | some s0 =>
      rw [hafr] at h
      obtain ⟨hr, hs2, hrest⟩ : r0 = r ∧ s0 = s ∧ tail = rest := by
        simpa using h
      refine ⟨[], tail, by rw [hr, List.nil_append], by rw [← hrest, List.nil_append], by simp, ?_⟩
      rw [← hr, ← hs2]
      exact hafr
    | none =>
      rw [hafr] at h
      cases hfr : find_region size align tail with
      | some v =>
        obtain ⟨r', s', rest'⟩ := v
        rw [hfr] at h
        obtain ⟨hr, hs2, hrest⟩ : r' = r ∧ s' = s ∧ r0 :: rest' = rest := by
          simpa using h
        subst hr
        subst hs2
        subst hrest
        obtain ⟨l1, l2, htail, hrest2, hrej, hacc⟩ := ih hfr
        refine ⟨r0 :: l1, l2, ?_, ?_, ?_, hacc⟩
        · rw [htail]; rfl
        · rw [hrest2]; rfl
        · intro x hx
          rcases List.mem_cons.mp hx with hx | hx
          · subst hx; exact hafr
          · exact hrej x hx
      | none =>
        rw [hfr] at h
        exact absurd h (by simp)

lemma find_region_none {size align : Nat} {l : List Region} :
    find_region size align l = none ↔
      ∀ x ∈ l, alloc_from_region x size align = none := by
  induction l with
  | nil => simp [find_region]
  | cons r0 tail ih =>
    unfold find_region
    cases hafr : alloc_from_region r0 size align with
    | some s0 =>
      simp only [reduceCtorEq, false_iff]
      intro hall
      exact absurd (hall r0 (by simp)) (by simp [hafr])
    | none =>
      cases hfr : find_region size align tail with
      | some v =>
        obtain ⟨r', s', rest'⟩ := v
        simp only [reduceCtorEq, false_iff]
        intro hall
        have : find_region size align tail = none :=
          ih.mpr (fun x hx => hall x (by simp [hx]))
        rw [this] at hfr
        exact absurd hfr (by simp)
      | none =>
        simp only [true_iff]
        intro x hx
        rcases List.mem_cons.mp hx with hx | hx
        · subst hx; exact hafr
        · exact ih.mp hfr x hx

lemma find_region_perm {size align : Nat} {l rest : List Region} {r : Region} {s : Nat}
    (h : find_region size align l = some (r, s, rest)) : l.Perm (r :: rest) := by
  obtain ⟨l1, l2, hl, hrest, _, _⟩ := find_region_some h
  rw [hl, hrest]
  exact List.perm_middle

lemma align_up_8 (p : Nat) (hd : 8 ∣ p) (h : p + 8 ≤ 2 ^ 64) : align_up p 8 = p := by
  have h83 : (8 : Nat) = 2 ^ 3 := by norm_num
  rw [h83] at hd h ⊢
  exact align_up_eq_self p 3 (by omega) h hd

lemma llAlloc_some_shape {sz al p : Nat} {l l' : List Region}
    (h : llAlloc sz al l = some (some p, l')) :
    ∃ r rest, find_region (size_align sz al).1 (size_align sz al).2 l = some (r, p, rest) ∧
      ((r.end_addr - (p + (size_align sz al).1) = 0 ∧ l' = rest) ∨
        (16 ≤ r.end_addr - (p + (size_align sz al).1) ∧
          l' = ⟨p + (size_align sz al).1,
                r.end_addr - (p + (size_align sz al).1)⟩ :: rest)) := by
  simp only [llAlloc] at h
  split at h
  next r s rest hfind =>
    split_ifs at h with h1 h2
    · cases hadd : add_free_region (s + (size_align sz al).1)
          (r.end_addr - (s + (size_align sz al).1)) rest with
      | some l2 =>
        rw [hadd] at h
        obtain ⟨hp, hl⟩ : s = p ∧ l2 = l' := by simpa using h
        obtain ⟨hcons, _, h16⟩ := add_free_region_some hadd
        subst hp
        exact ⟨r, rest, hfind, Or.inr ⟨h16, by rw [← hl, hcons]⟩⟩
      | none =>
        rw [hadd] at h
        exact absurd h (by simp)
    · obtain ⟨hp, hl⟩ : s = p ∧ rest = l' := by simpa using h
      subst hp
      exact ⟨r, rest, hfind, Or.inl ⟨by omega, hl.symm⟩⟩
  next hfind =>
    exact absurd h (by simp)

lemma llAlloc_fail {sz al : Nat} {l l' : List Region}
    (h : llAlloc sz al l = some (none, l')) :
    l' = l ∧ ∀ x ∈ l, alloc_from_region x (size_align sz al).1 (size_align sz al).2 = none := by
  simp only [llAlloc] at h
  split at h
  next r s rest hfind =>
    split_ifs at h with h1 h2
    · cases hadd : add_free_region (s + (size_align sz al).1)
          (r.end_addr - (s + (size_align sz al).1)) rest with
      | some l2 => rw [hadd] at h; exact absurd h (by simp)
      | none => rw [hadd] at h; exact absurd h (by simp)
    · exact absurd h (by simp)
  next hfind =>
    have hl : l = l' := by simpa using h
    exact ⟨hl.symm, find_region_none.mp hfind⟩

lemma llAlloc_fail_of {sz al : Nat} {l : List Region}
    (h : ∀ x ∈ l, alloc_from_region x (size_align sz al).1 (size_align sz al).2 = none) :
    llAlloc sz al l = some (none, l) := by
  simp only [llAlloc]
  rw [find_region_none.mpr h]

lemma llDealloc_some {p sz al : Nat} {l l' : List Region}
    (h : llDealloc p sz al l = some l') :
    l' = ⟨p, (size_align sz al).1⟩ :: l :=
  (add_free_region_some h).1

lemma llDealloc_of {p sz al k : Nat} (l : List Region) (hk : al = 2 ^ k)
    (hd : 8 ∣ p) (hp : p + 8 ≤ 2 ^ 64) :
    llDealloc p sz al l = some (⟨p, (size_align sz al).1⟩ :: l) :=
  add_free_region_of l (align_up_8 p hd hp) (size_align_size sz al k hk).2.1

/-- Core soundness of a successful free-list allocation: relative to any
ambient collection `X` of other disjoint regions, the new free list plus
the newly occupied block still forms a disjoint in-heap family, and the
granted address is aligned. -/
lemma llAlloc_sound {hs he sz al p k : Nat} {l l' X : List Region}
    (hhe : he ≤ 2 ^ 63) (hk : k ≤ 63) (hal : al = 2 ^ k)
    (hok : okList hs he (l ++ X))
    (h : llAlloc sz al l = some (some p, l')) :
    okList hs he (l' ++ (⟨p, (size_align sz al).1⟩ :: X)) ∧
    8 ∣ p ∧ al ∣ p ∧ (size_align sz al).2 ∣ p ∧ sz ≤ (size_align sz al).1 ∧
    hs ≤ p ∧ p + (size_align sz al).1 ≤ he := by
  obtain ⟨r, rest, hfind, hshape⟩ := llAlloc_some_shape h
  obtain ⟨l1, l2, _, _, _, hacc⟩ := find_region_some hfind
  rw [alloc_from_region_some] at hacc
  obtain ⟨hp, _, hfits, _⟩ := hacc
  obtain ⟨hsa2, hm⟩ := size_align_align sz al k hk hal
  set m := max k 3 with hmdef
  have hperm : (l ++ X).Perm (r :: (rest ++ X)) := (find_region_perm hfind).append_right X
  have hok' : okList hs he (r :: (rest ++ X)) := okList_perm hperm hok
  have hrin : inHeap hs he r := (okList_cons_iff.mp hok').1
  have hnw : r.addr + (size_align sz al).2 ≤ 2 ^ 64 := by
    have h1 : r.addr ≤ 2 ^ 63 := by
      have := hrin.2
      omega
    have h2 : (size_align sz al).2 ≤ 2 ^ 63 := by
      rw [hsa2]
      exact Nat.pow_le_pow_right (by norm_num) (by omega)
    calc r.addr + (size_align sz al).2 ≤ 2 ^ 63 + 2 ^ 63 := by omega
      _ = 2 ^ 64 := by norm_num
  have hge : r.addr ≤ p := by
    rw [hp, hsa2]
    exact align_up_ge r.addr m (by omega) (by rw [← hsa2]; exact hnw)
  have hdvd2 : (size_align sz al).2 ∣ p := by
    rw [hp, hsa2]
    exact align_up_dvd r.addr m (by omega)
  have hd8 : 8 ∣ p := by
    have h83 : (8 : Nat) = 2 ^ 3 := by norm_num
    refine dvd_trans ?_ hdvd2
    rw [hsa2, h83]
    exact Nat.pow_dvd_pow 2 (by omega)
  have hdal : al ∣ p := by
    refine dvd_trans ?_ hdvd2
    rw [hsa2, hal]
    exact Nat.pow_dvd_pow 2 (by omega)
  have hsz := size_align_size sz al k hal
  have hfits' : p + (size_align sz al).1 ≤ r.addr + r.size := by
    rw [hp]
    exact hfits
  have hhi : p + (size_align sz al).1 ≤ he := le_trans hfits' hrin.2
  have hlo : hs ≤ p := le_trans hrin.1 hge
  refine ⟨?_, hd8, hdal, hdvd2, hsz.1, hlo, hhi⟩
  rcases hshape with ⟨hexc, hl'⟩ | ⟨hexc, hl'⟩
  · -- exact fit: the free list loses the region, the grant covers it
    rw [hl']
    have hsub : SubR ⟨p, (size_align sz al).1⟩ r := ⟨hge, hfits'⟩
    have hok2 : okList hs he (⟨p, (size_align sz al).1⟩ :: (rest ++ X)) :=
      okList_sub_head hok' hsub
    exact okList_perm List.perm_middle.symm hok2
  · -- split: occupied block and excess both carved out of the region
    rw [hl']
    have hsub1 : SubR ⟨p, (size_align sz al).1⟩ r := ⟨hge, hfits'⟩
    have hsub2 : SubR ⟨p + (size_align sz al).1,
        r.end_addr - (p + (size_align sz al).1)⟩ r := by
      constructor
      · simp only []
        omega
      · show p + (size_align sz al).1 + (r.end_addr - (p + (size_align sz al).1)) ≤ _
        have : r.end_addr = r.addr + r.size := rfl
        omega
    have hd12 : RDisj ⟨p, (size_align sz al).1⟩
        ⟨p + (size_align sz al).1, r.end_addr - (p + (size_align sz al).1)⟩ := by
      unfold RDisj
      simp only []
      omega
    have hok2 := okList_split2 hok' hsub1 hsub2 hd12
    -- reorder: target is excess :: rest ++ grant :: X
    have hperm2 : (⟨p, (size_align sz al).1⟩ ::
        ⟨p + (size_align sz al).1, r.end_addr - (p + (size_align sz al).1)⟩ ::
          (rest ++ X)).Perm
        ((⟨p + (size_align sz al).1, r.end_addr - (p + (size_align sz al).1)⟩ :: rest) ++
          (⟨p, (size_align sz al).1⟩ :: X)) := by
      refine List.Perm.trans (List.Perm.swap _ _ _) ?_
      show (_ :: (⟨p, (size_align sz al).1⟩ :: (rest ++ X))).Perm _
      exact List.Perm.cons _ List.perm_middle.symm
    exact okList_perm hperm2 hok2

/-! ## Trace invariants -/

lemma runOps_inv {σ : Type} (step : σ → Op → Option σ) (P : σ → Prop)
    (hstep : ∀ s op s', P s → ValidOp op → step s op = some s' → P s') :
    ∀ (ops : List Op) (s s' : σ), (∀ op ∈ ops, ValidOp op) → P s →
      runOps step s ops = some s' → P s' := by
  intro ops
  induction ops with
  | nil =>
    intro s s' _ hP hrun
    obtain rfl : s = s' := by simpa [runOps] using hrun
    exact hP
  | cons op rest ih =>
    intro s s' hv hP hrun
    unfold runOps at hrun
    cases hst : step s op with
    | some s1 =>
      rw [hst] at hrun
      exact ih s1 s' (fun o ho => hv o (by simp [ho]))
        (hstep s op s1 hP (hv op (by simp)) hst) hrun
    | none =>
      rw [hst] at hrun
      exact absurd hrun (by simp)

lemma stepBump_inv {tr tr' : BumpTr} {op : Op}
    (hP : InvBump tr) (hv : ValidOp op) (h : stepBump tr op = some tr') :
    InvBump tr' := by
  obtain ⟨hhe, hsn, hne, hlive, hpw, hcount⟩ := hP
  cases op with
  | alloc sz al =>
    obtain ⟨k, hk, hal⟩ := hv
    simp only [stepBump] at h
    split at h
    next p b' heq =>
      obtain rfl : (⟨b', ⟨p, sz, al⟩ :: tr.live⟩ : BumpTr) = tr' := by simpa using h
      simp only [BumpAllocator.alloc] at heq
      split_ifs at heq with h1 h2
      · exact absurd heq (by simp)
      · obtain ⟨hp, hb⟩ : align_up tr.b.next al = p ∧ _ = b' := by
          simpa using heq
        have hf1 : b'.heap_start = tr.b.heap_start := by rw [← hb]
        have hf2 : b'.heap_end = tr.b.heap_end := by rw [← hb]
        have hf3 : b'.next = align_up tr.b.next al + sz := by rw [← hb]
        have hf4 : b'.allocations = tr.b.allocations + 1 := by rw [← hb]
        have hnw : tr.b.next + al ≤ 2 ^ 64 := by
          have hal2 : al ≤ 2 ^ 63 := by
            rw [hal]
            exact Nat.pow_le_pow_right (by norm_num) hk
          have h64 : (2 : Nat) ^ 63 + 2 ^ 63 = 2 ^ 64 := by norm_num
          omega
        have hge : tr.b.next ≤ align_up tr.b.next al := by
          rw [hal] at hnw ⊢
          exact align_up_ge tr.b.next k (by omega) hnw
        refine ⟨?_, ?_, ?_, ?_, ?_, ?_⟩
        · show b'.heap_end ≤ 2 ^ 63
          rw [hf2]; exact hhe
        · show b'.heap_start ≤ b'.next
          rw [hf1, hf3]; omega
        · show b'.next ≤ b'.heap_end
          rw [hf3, hf2]; omega
        · show ∀ g ∈ (⟨p, sz, al⟩ : Grant) :: tr.live, g.ptr + g.sz ≤ b'.next ∧
            b'.heap_start ≤ g.ptr
          intro g hg
          rw [hf1, hf3]
          rcases List.mem_cons.mp hg with hg | hg
          · subst hg
            constructor
            · show p + sz ≤ align_up tr.b.next al + sz
              omega
            · show tr.b.heap_start ≤ p
              omega
          · have := hlive g hg
            exact ⟨by omega, by omega⟩
        · show (((⟨p, sz, al⟩ : Grant) :: tr.live).map userRegion).Pairwise RDisj
          rw [List.map_cons, List.pairwise_cons]
          refine ⟨?_, hpw⟩
          intro x hx
          obtain ⟨g, hg, rfl⟩ := List.mem_map.mp hx
          have hgl := hlive g hg
          show RDisj (userRegion ⟨p, sz, al⟩) (userRegion g)
          unfold RDisj userRegion
          simp only []
          omega
        · show b'.allocations = ((⟨p, sz, al⟩ : Grant) :: tr.live).length
          rw [hf4, List.length_cons]
          omega
      · exact absurd heq (by simp)
    next b' heq =>
      obtain rfl : (⟨b', tr.live⟩ : BumpTr) = tr' := by simpa using h
      simp only [BumpAllocator.alloc] at heq
      split_ifs at heq with h1 h2
      · obtain rfl : tr.b = b' := by simpa using heq
        exact ⟨hhe, hsn, hne, hlive, hpw, hcount⟩
      · exact absurd heq (by simp)
      · obtain rfl : tr.b = b' := by simpa using heq
        exact ⟨hhe, hsn, hne, hlive, hpw, hcount⟩
  | free p sz al =>
    simp only [stepBump] at h
    split_ifs at h with hmem
    · cases hd : BumpAllocator.dealloc tr.b with
      | some b' =>
        rw [hd] at h
        obtain rfl : (⟨b', tr.live.erase ⟨p, sz, al⟩⟩ : BumpTr) = tr' := by simpa using h
        simp only [BumpAllocator.dealloc] at hd
        split_ifs at hd with h0 hz
        · -- the counter reaches zero: cursor reset to heap_start
          obtain hb : _ = b' := by simpa using hd
          have hf1 : b'.heap_start = tr.b.heap_start := by rw [← hb]
          have hf2 : b'.heap_end = tr.b.heap_end := by rw [← hb]
          have hf3 : b'.next = tr.b.heap_start := by rw [← hb]
          have hf4 : b'.allocations = tr.b.allocations - 1 := by rw [← hb]
          have hpos : 0 < tr.live.length := List.length_pos_of_mem hmem
          have hlen : (tr.live.erase ⟨p, sz, al⟩).length = tr.live.length - 1 :=
            List.length_erase_of_mem hmem
          have hnil : tr.live.erase ⟨p, sz, al⟩ = [] := by
            rw [← List.length_eq_zero]
            omega
          refine ⟨?_, ?_, ?_, ?_, ?_, ?_⟩
          · show b'.heap_end ≤ 2 ^ 63
            rw [hf2]; exact hhe
          · show b'.heap_start ≤ b'.next
            rw [hf1, hf3]
          · show b'.next ≤ b'.heap_end
            rw [hf3, hf2]; exact le_trans hsn hne
          · show ∀ g ∈ tr.live.erase ⟨p, sz, al⟩, g.ptr + g.sz ≤ b'.next ∧
              b'.heap_start ≤ g.ptr
            rw [hnil]
            intro g hg
            exact absurd hg (by simp)
          · show ((tr.live.erase ⟨p, sz, al⟩).map userRegion).Pairwise RDisj
            rw [hnil]
            exact List.Pairwise.nil
          · show b'.allocations = (tr.live.erase ⟨p, sz, al⟩).length
            rw [hf4, hlen, hcount]
        · -- the counter stays positive: cursor unchanged
          obtain hb : _ = b' := by simpa using hd
          have hf1 : b'.heap_start = tr.b.heap_start := by rw [← hb]
          have hf2 : b'.heap_end = tr.b.heap_end := by rw [← hb]
          have hf3 : b'.next = tr.b.next := by rw [← hb]
          have hf4 : b'.allocations = tr.b.allocations - 1 := by rw [← hb]
          have hsubl : (tr.live.erase ⟨p, sz, al⟩).Sublist tr.live :=
            List.erase_sublist _ _
          have hlen : (tr.live.erase ⟨p, sz, al⟩).length = tr.live.length - 1 :=
            List.length_erase_of_mem hmem
          refine ⟨?_, ?_, ?_, ?_, ?_, ?_⟩
          · show b'.heap_end ≤ 2 ^ 63
            rw [hf2]; exact hhe
          · show b'.heap_start ≤ b'.next
            rw [hf1, hf3]; exact hsn
          · show b'.next ≤ b'.heap_end
            rw [hf3, hf2]; exact hne
          · show ∀ g ∈ tr.live.erase ⟨p, sz, al⟩, g.ptr + g.sz ≤ b'.next ∧
              b'.heap_start ≤ g.ptr
            intro g hg
            rw [hf1, hf3]
            exact hlive g (hsubl.subset hg)
          · show ((tr.live.erase ⟨p, sz, al⟩).map userRegion).Pairwise RDisj
            exact hpw.sublist (hsubl.map userRegion)
          · show b'.allocations = (tr.live.erase ⟨p, sz, al⟩).length
            rw [hf4, hlen, hcount]
      | none =>
        rw [hd] at h
        exact absurd h (by simp)

lemma stepLL_inv {hs he : Nat} (hhe : he ≤ 2 ^ 63) {tr tr' : LLTr} {op : Op}
    (hP : InvLL hs he tr) (hv : ValidOp op) (h : stepLL tr op = some tr') :
    InvLL hs he tr' := by
  obtain ⟨hok, h8⟩ := hP
  cases op with
  | alloc sz al =>
    obtain ⟨k, hk, hal⟩ := hv
    simp only [stepLL] at h
    split at h
    next p f' heq =>
      obtain rfl : (⟨f', ⟨p, sz, al⟩ :: tr.live⟩ : LLTr) = tr' := by simpa using h
      have hsound := llAlloc_sound (X := tr.live.map occLL) hhe hk hal hok heq
      constructor
      · show okList hs he (f' ++ ((⟨p, sz, al⟩ : Grant) :: tr.live).map occLL)
        rw [List.map_cons]
        exact hsound.1
      · intro g hg
        rcases List.mem_cons.mp hg with hg | hg
        · subst hg
          exact hsound.2.1
        · exact h8 g hg
    next f' heq =>
      obtain rfl : (⟨f', tr.live⟩ : LLTr) = tr' := by simpa using h
      obtain ⟨rfl, -⟩ := llAlloc_fail heq
      exact ⟨hok, h8⟩
    next heq =>
      exact absurd h (by simp)
  | free p sz al =>
    simp only [stepLL] at h
    split_ifs at h with hmem
    split at h
    next f' heq =>
      obtain rfl : (⟨f', tr.live.erase ⟨p, sz, al⟩⟩ : LLTr) = tr' := by simpa using h
      have hcons := llDealloc_some heq
      constructor
      · show okList hs he (f' ++ (tr.live.erase ⟨p, sz, al⟩).map occLL)
        rw [hcons]
        have h1 : tr.live.Perm (⟨p, sz, al⟩ :: tr.live.erase ⟨p, sz, al⟩) :=
          List.perm_cons_erase hmem
        have h2 : (tr.live.map occLL).Perm
            (occLL ⟨p, sz, al⟩ :: (tr.live.erase ⟨p, sz, al⟩).map occLL) := by
          simpa using h1.map occLL
        have hperm : (tr.free ++ tr.live.map occLL).Perm
            (occLL ⟨p, sz, al⟩ :: (tr.free ++ (tr.live.erase ⟨p, sz, al⟩).map occLL)) :=
          List.Perm.trans (h2.append_left tr.free) List.perm_middle
        exact okList_perm hperm hok
      · intro g hg
        exact h8 g ((List.erase_sublist _ _).subset hg)
    next heq =>
      exact absurd h (by simp)

lemma InvLL_init {hs hsz : Nat} {f0 : List Region} (hhe : hs + hsz ≤ 2 ^ 63)
    (hinit : llInit hs hsz = some f0) : InvLL hs (hs + hsz) ⟨f0, []⟩ := by
  obtain ⟨hf0, -, -⟩ := add_free_region_some hinit
  subst hf0
  refine ⟨⟨?_, ?_⟩, ?_⟩
  · intro r hr
    have hr' : r = ⟨hs, hsz⟩ := by simpa using hr
    subst hr'
    exact ⟨le_refl _, le_refl _⟩
  · simp
  · intro g hg
    exact absurd hg (by simp)

/-! ## Size-class selection -/

lemma list_index_eq (sz al : Nat) : list_index sz al =
    (if max sz al ≤ 8 then some 0 else if max sz al ≤ 16 then some 1
     else if max sz al ≤ 32 then some 2 else if max sz al ≤ 64 then some 3
     else if max sz al ≤ 128 then some 4 else if max sz al ≤ 256 then some 5
     else if max sz al ≤ 512 then some 6 else if max sz al ≤ 1024 then some 7
     else if max sz al ≤ 2048 then some 8 else none) := by
  simp only [list_index, BLOCK_SIZES, List.findIdx?_cons, List.findIdx?_nil,
    decide_eq_true_eq]

lemma list_index_facts {sz al i : Nat} (h : list_index sz al = some i) :
    i < 9 ∧ max sz al ≤ BLOCK_SIZES.getD i 0 ∧ 8 ≤ BLOCK_SIZES.getD i 0 ∧
      BLOCK_SIZES.getD i 0 ≤ 2048 ∧ ∀ j < i, BLOCK_SIZES.getD j 0 < max sz al := by
  have hB0 : BLOCK_SIZES.getD 0 0 = 8 := rfl
  have hB1 : BLOCK_SIZES.getD 1 0 = 16 := rfl
  have hB2 : BLOCK_SIZES.getD 2 0 = 32 := rfl
  have hB3 : BLOCK_SIZES.getD 3 0 = 64 := rfl
  have hB4 : BLOCK_SIZES.getD 4 0 = 128 := rfl
  have hB5 : BLOCK_SIZES.getD 5 0 = 256 := rfl
  have hB6 : BLOCK_SIZES.getD 6 0 = 512 := rfl
  have hB7 : BLOCK_SIZES.getD 7 0 = 1024 := rfl
  have hB8 : BLOCK_SIZES.getD 8 0 = 2048 := rfl
  rw [list_index_eq] at h
  split_ifs at h with h1 h2 h3 h4 h5 h6 h7 h8 h9 <;>
    obtain rfl := (Option.some.inj h).symm <;>
    exact ⟨by omega, by omega, by omega, by omega,
      by intro j hj; interval_cases j <;> omega⟩

lemma list_index_none {sz al : Nat} (h : list_index sz al = none) :
    2048 < max sz al := by
  rw [list_index_eq] at h
  split_ifs at h <;> omega

lemma list_index_of {sz al i : Nat} (hi : i < 9)
    (hle : max sz al ≤ BLOCK_SIZES.getD i 0)
    (hmin : ∀ j < i, BLOCK_SIZES.getD j 0 < max sz al) :
    list_index sz al = some i := by
  cases hidx : list_index sz al with
  | none =>
    have hn := list_index_none hidx
    have hB : BLOCK_SIZES.getD i 0 ≤ 2048 := by
      have hB0 : BLOCK_SIZES.getD 0 0 = 8 := rfl
      have hB1 : BLOCK_SIZES.getD 1 0 = 16 := rfl
      have hB2 : BLOCK_SIZES.getD 2 0 = 32 := rfl
      have hB3 : BLOCK_SIZES.getD 3 0 = 64 := rfl
      have hB4 : BLOCK_SIZES.getD 4 0 = 128 := rfl
      have hB5 : BLOCK_SIZES.getD 5 0 = 256 := rfl
      have hB6 : BLOCK_SIZES.getD 6 0 = 512 := rfl
      have hB7 : BLOCK_SIZES.getD 7 0 = 1024 := rfl
      have hB8 : BLOCK_SIZES.getD 8 0 = 2048 := rfl
      interval_cases i <;> omega
    omega
  | some i' =>
    obtain ⟨-, hle', -, -, hmin'⟩ := list_index_facts hidx
    rcases Nat.lt_trichotomy i i' with hlt | heq | hgt
    · have := hmin' i hlt
      omega
    · rw [heq]
    · have := hmin i' hgt
      omega

/-- Every block size, used as both size and alignment, is a valid layout. -/
lemma block_size_valid {i : Nat} (hi : i < 9) :
    ∃ k, k ≤ 63 ∧ BLOCK_SIZES.getD i 0 = 2 ^ k := by
  interval_cases i
  · exact ⟨3, by omega, by decide⟩
  · exact ⟨4, by omega, by decide⟩
  · exact ⟨5, by omega, by decide⟩
  · exact ⟨6, by omega, by decide⟩
  · exact ⟨7, by omega, by decide⟩
  · exact ⟨8, by omega, by decide⟩
  · exact ⟨9, by omega, by decide⟩
  · exact ⟨10, by omega, by decide⟩
  · exact ⟨11, by omega, by decide⟩

/-! ## Class free-list bookkeeping -/

lemma getD_set_self (l : List (List Nat)) (i : Nat) (v : List Nat) (h : i < l.length) :
    (l.set i v).getD i [] = v := by
  rw [List.getD_eq_getElem?_getD, List.getElem?_set_self h]
  rfl

lemma getD_set_ne (l : List (List Nat)) {i j : Nat} (v : List Nat) (h : i ≠ j) :
    (l.set i v).getD j [] = l.getD j [] := by
  rw [List.getD_eq_getElem?_getD, List.getElem?_set_ne h, ← List.getD_eq_getElem?_getD]

lemma flatMap_congr2 {α β : Type} {f g : α → List β} :
    ∀ {L : List α}, (∀ a ∈ L, f a = g a) → L.flatMap f = L.flatMap g := by
  intro L
  induction L with
  | nil => intro _; rfl
  | cons a t ih =>
    intro h
    rw [List.flatMap_cons, List.flatMap_cons, h a (by simp), ih (fun x hx => h x (by simp [hx]))]

lemma flatMap_extract {f : Nat → List Region} :
    ∀ (L : List Nat), L.Nodup → ∀ i ∈ L,
      (L.flatMap f).Perm
        (f i ++ L.flatMap (fun j => if j = i then [] else f j)) := by
  intro L
  induction L with
  | nil =>
    intro _ i hi
    exact absurd hi (by simp)
  | cons a t ih =>
    intro hnd i hi
    have hnd' := List.nodup_cons.mp hnd
    rcases List.mem_cons.mp hi with heq | hi'
    · subst heq
      rw [List.flatMap_cons, List.flatMap_cons, if_pos rfl, List.nil_append]
      have ht : (t.flatMap fun j => if j = i then [] else f j) = t.flatMap f :=
        flatMap_congr2 (fun x hx => if_neg (by rintro rfl; exact hnd'.1 hx))
      rw [ht]
    · have ha : a ≠ i := by
        rintro rfl
        exact hnd'.1 hi'
      rw [List.flatMap_cons, List.flatMap_cons, if_neg ha]
      have hp : (t.flatMap f).Perm
          (f i ++ t.flatMap fun j => if j = i then [] else f j) :=
        ih hnd'.2 i hi'
      have h1 : (f a ++ t.flatMap f).Perm
          (f a ++ (f i ++ t.flatMap fun j => if j = i then [] else f j)) :=
        hp.append_left _
      have h2 : (f a ++ (f i ++ t.flatMap fun j => if j = i then [] else f j)).Perm
          (f i ++ (f a ++ t.flatMap fun j => if j = i then [] else f j)) := by
        rw [← List.append_assoc, ← List.append_assoc]
        exact List.Perm.append_right _ List.perm_append_comm
      exact h1.trans h2

lemma classRegions_extract (heads : List (List Nat)) {i : Nat} (hi : i < 9) :
    (classRegions heads).Perm
      ((heads.getD i []).map (fun b => ⟨b, BLOCK_SIZES.getD i 0⟩) ++
        (List.range BLOCK_SIZES.length).flatMap
          (fun j => if j = i then []
            else (heads.getD j []).map (fun b => ⟨b, BLOCK_SIZES.getD j 0⟩))) := by
  have hmem : i ∈ List.range BLOCK_SIZES.length := by
    rw [List.mem_range]
    exact hi
  exact flatMap_extract (List.range BLOCK_SIZES.length)
    (List.nodup_range _) i hmem

lemma classRegions_set (heads : List (List Nat)) {i : Nat} (hi : i < 9)
    (hlen : heads.length = 9) (v : List Nat) :
    (classRegions (heads.set i v)).Perm
      (v.map (fun b => ⟨b, BLOCK_SIZES.getD i 0⟩) ++
        (List.range BLOCK_SIZES.length).flatMap
          (fun j => if j = i then []
            else (heads.getD j []).map (fun b => ⟨b, BLOCK_SIZES.getD j 0⟩))) := by
  have h1 := classRegions_extract (heads.set i v) hi
  rw [getD_set_self heads i v (by omega)] at h1
  have h2 : ((List.range BLOCK_SIZES.length).flatMap
      (fun j => if j = i then []
        else ((heads.set i v).getD j []).map
          (fun b => (⟨b, BLOCK_SIZES.getD j 0⟩ : Region))))
      = ((List.range BLOCK_SIZES.length).flatMap
      (fun j => if j = i then []
        else (heads.getD j []).map
          (fun b => (⟨b, BLOCK_SIZES.getD j 0⟩ : Region)))) := by
    apply flatMap_congr2
    intro j hj
    by_cases hji : j = i
    · rw [if_pos hji, if_pos hji]
    · rw [if_neg hji, if_neg hji, getD_set_ne heads v (fun he => hji he.symm)]
  rw [h2] at h1
  exact h1

lemma classRegions_push (heads : List (List Nat)) {i : Nat} (hi : i < 9)
    (hlen : heads.length = 9) (b : Nat) :
    (classRegions (heads.set i (b :: heads.getD i []))).Perm
      (⟨b, BLOCK_SIZES.getD i 0⟩ :: classRegions heads) := by
  have h1 := classRegions_set heads hi hlen (b :: heads.getD i [])
  have h2 := classRegions_extract heads hi
  rw [List.map_cons, List.cons_append] at h1
  exact h1.trans (List.Perm.cons _ h2.symm)

lemma classRegions_pop (heads : List (List Nat)) {i : Nat} (hi : i < 9)
    (hlen : heads.length = 9) {b : Nat} {tl : List Nat}
    (hhead : heads.getD i [] = b :: tl) :
    (classRegions heads).Perm
      (⟨b, BLOCK_SIZES.getD i 0⟩ :: classRegions (heads.set i tl)) := by
  have h1 := classRegions_extract heads hi
  have h2 := classRegions_set heads hi hlen tl
  rw [hhead, List.map_cons, List.cons_append] at h1
  exact h1.trans (List.Perm.cons _ h2.symm)

lemma classRegions_mem {heads : List (List Nat)} {i : Nat} (hi : i < 9) {b : Nat}
    (hb : b ∈ heads.getD i []) :
    (⟨b, BLOCK_SIZES.getD i 0⟩ : Region) ∈ classRegions heads := by
  have h1 := classRegions_extract heads hi
  rw [h1.mem_iff]
  exact List.mem_append_left _ (List.mem_map_of_mem _ hb)

/-- Normalizing a block-size layout `(C, C)` with `C ≥ 8`: the alignment
stays `C` and the size becomes `max C 16`. -/
lemma size_align_self {C : Nat} (h8 : 8 ≤ C) :
    (size_align C C).1 = max C 16 ∧ (size_align C C).2 = C := by
  have hmax : max C 8 = C := Nat.max_eq_left h8
  have hpad : pad_to_align C C = C :=
    roundUp_eq_self C C (by omega) dvd_rfl
  constructor
  · show max (pad_to_align C (max C 8)) 16 = max C 16
    rw [hmax, hpad]
  · show max C 8 = C
    exact hmax

/-- A failed fixed-size-block allocation leaves the allocator unchanged. -/
lemma fsAlloc_null {sz al : Nat} {a a' : FixedSizeBlockAllocator}
    (h : fsAlloc sz al a = some (none, a')) : a' = a := by
  simp only [fsAlloc] at h
  split at h
  next index hidx =>
    split at h
    next node rest hheads =>
      exact absurd h (by simp)
    next hheads =>
      split at h
      next r0 fb' hll =>
        obtain ⟨hr0, hs'⟩ : r0 = none ∧ (⟨a.list_heads, fb'⟩ : FixedSizeBlockAllocator) = a' := by
          simpa using h
        subst hr0
        obtain ⟨rfl, -⟩ := llAlloc_fail hll
        rw [← hs']
      next hll =>
        exact absurd h (by simp)
  next hidx =>
    split at h
    next r0 fb' hll =>
      obtain ⟨hr0, hs'⟩ : r0 = none ∧ (⟨a.list_heads, fb'⟩ : FixedSizeBlockAllocator) = a' := by
        simpa using h
      subst hr0
      obtain ⟨rfl, -⟩ := llAlloc_fail hll
      rw [← hs']
    next hll =>
      exact absurd h (by simp)

lemma okList_shift {hs he : Nat} {A B C : List Region} {n n' : Region}
    (h : okList hs he (A ++ (n :: (B ++ C)))) (hsub : SubR n' n) :
    okList hs he (A ++ (B ++ (n' :: C))) := by
  have h1 : (A ++ (n :: (B ++ C))).Perm (n :: (A ++ (B ++ C))) := List.perm_middle
  have h2 := okList_sub_head (okList_perm h1 h) hsub
  have h3 : (A ++ (B ++ (n' :: C))).Perm (n' :: (A ++ (B ++ C))) := by
    have h4 : (B ++ (n' :: C)).Perm (n' :: (B ++ C)) := List.perm_middle
    exact List.Perm.trans (h4.append_left A) List.perm_middle
  exact okList_perm h3.symm h2

lemma stepFS_inv {hs he : Nat} (hhe : he ≤ 2 ^ 63) {tr tr' : FSTr} {op : Op}
    (hP : InvFS hs he tr) (hv : ValidOp op) (h : stepFS tr op = some tr') :
    InvFS hs he tr' := by
  obtain ⟨hok, hcls, hga, hlen⟩ := hP
  have hlen9 : tr.s.list_heads.length = 9 := hlen
  cases op with
  | alloc sz al =>
    simp only [stepFS] at h
    split at h
    next p s' heq =>
      obtain rfl : (⟨s', ⟨p, sz, al⟩ :: tr.live⟩ : FSTr) = tr' := by simpa using h
      simp only [fsAlloc] at heq
      split at heq
      next index hidx =>
        obtain ⟨hi9, hile, hi8, hi2048, -⟩ := list_index_facts hidx
        split at heq
        next node rest hheads =>
          -- pop the head of a non-empty class list
          obtain ⟨hp, hs'⟩ : node = p ∧
              (⟨tr.s.list_heads.set index rest, tr.s.fallback_allocator⟩ :
                FixedSizeBlockAllocator) = s' := by
            simpa using heq
          subst hp
          have hocc : occFS ⟨node, sz, al⟩ = ⟨node, BLOCK_SIZES.getD index 0⟩ := by
            simp only [occFS, hidx]
          refine ⟨?_, ?_, ?_, ?_⟩
          · show okList hs he (combinedFS ⟨s', ⟨node, sz, al⟩ :: tr.live⟩)
            rw [← hs']
            show okList hs he (tr.s.fallback_allocator ++
              (classRegions (tr.s.list_heads.set index rest) ++
                (((⟨node, sz, al⟩ : Grant) :: tr.live).map occFS)))
            rw [List.map_cons, hocc]
            have hpop := classRegions_pop tr.s.list_heads hi9 hlen9 hheads
            have hold : (combinedFS tr).Perm
                ((⟨node, BLOCK_SIZES.getD index 0⟩ : Region) ::
                  (tr.s.fallback_allocator ++
                    (classRegions (tr.s.list_heads.set index rest) ++
                      tr.live.map occFS))) := by
              show (tr.s.fallback_allocator ++
                (classRegions tr.s.list_heads ++ tr.live.map occFS)).Perm _
              have q1 : (classRegions tr.s.list_heads ++ tr.live.map occFS).Perm
                  ((⟨node, BLOCK_SIZES.getD index 0⟩ : Region) ::
                    (classRegions (tr.s.list_heads.set index rest) ++
                      tr.live.map occFS)) :=
                hpop.append_right _
              exact List.Perm.trans (q1.append_left _) List.perm_middle
            have hnew : (tr.s.fallback_allocator ++
                (classRegions (tr.s.list_heads.set index rest) ++
                  ((⟨node, BLOCK_SIZES.getD index 0⟩ : Region) ::
                    tr.live.map occFS))).Perm
                ((⟨node, BLOCK_SIZES.getD index 0⟩ : Region) ::
                  (tr.s.fallback_allocator ++
                    (classRegions (tr.s.list_heads.set index rest) ++
                      tr.live.map occFS))) := by
              have q2 : (classRegions (tr.s.list_heads.set index rest) ++
                  ((⟨node, BLOCK_SIZES.getD index 0⟩ : Region) ::
                    tr.live.map occFS)).Perm
                  ((⟨node, BLOCK_SIZES.getD index 0⟩ : Region) ::
                    (classRegions (tr.s.list_heads.set index rest) ++
                      tr.live.map occFS)) := List.perm_middle
              exact List.Perm.trans (q2.append_left _) List.perm_middle
            exact okList_perm hnew.symm (okList_perm hold hok)
          · show ∀ i, ∀ b ∈ s'.list_heads.getD i [], BLOCK_SIZES.getD i 0 ∣ b
            rw [← hs']
            intro i b hb
            by_cases hii : index = i
            · subst hii
              rw [getD_set_self _ _ _ (by omega)] at hb
              exact hcls index b (by rw [hheads]; simp [hb])
            · rw [getD_set_ne _ _ hii] at hb
              exact hcls i b hb
          · intro g hg
            rcases List.mem_cons.mp hg with hg | hg
            · subst hg
              show grantAligned ⟨node, sz, al⟩
              simp only [grantAligned, hidx]
              exact hcls index node (by rw [hheads]; simp)
            · exact hga g hg
          · show s'.list_heads.length = BLOCK_SIZES.length
            rw [← hs']
            show (tr.s.list_heads.set index rest).length = BLOCK_SIZES.length
            rw [List.length_set]
            exact hlen
        next hheads =>
          -- class list empty: one (C, C) block from the fallback
          split at heq
          next r0 fb' hll =>
            obtain ⟨hr0, hs'⟩ : r0 = some p ∧
                (⟨tr.s.list_heads, fb'⟩ : FixedSizeBlockAllocator) = s' := by
              simpa using heq
            subst hr0
            obtain ⟨kC, hkC, hCpow⟩ := block_size_valid hi9
            have hsound := llAlloc_sound
              (X := classRegions tr.s.list_heads ++ tr.live.map occFS)
              hhe hkC hCpow (by exact hok) hll
            have hsa := size_align_self hi8
            have hocc : occFS ⟨p, sz, al⟩ = ⟨p, BLOCK_SIZES.getD index 0⟩ := by
              simp only [occFS, hidx]
            refine ⟨?_, ?_, ?_, ?_⟩
            · show okList hs he (combinedFS ⟨s', ⟨p, sz, al⟩ :: tr.live⟩)
              rw [← hs']
              show okList hs he (fb' ++
                (classRegions tr.s.list_heads ++
                  (((⟨p, sz, al⟩ : Grant) :: tr.live).map occFS)))
              rw [List.map_cons, hocc]
              refine okList_shift hsound.1 ⟨le_refl _, ?_⟩
              show p + BLOCK_SIZES.getD index 0 ≤
                p + (size_align (BLOCK_SIZES.getD index 0) (BLOCK_SIZES.getD index 0)).1
              rw [hsa.1]
              have := Nat.le_max_left (BLOCK_SIZES.getD index 0) 16
              omega
            · show ∀ i, ∀ b ∈ s'.list_heads.getD i [], BLOCK_SIZES.getD i 0 ∣ b
              rw [← hs']
              exact hcls
            · intro g hg
              rcases List.mem_cons.mp hg with hg | hg
              · subst hg
                show grantAligned ⟨p, sz, al⟩
                simp only [grantAligned, hidx]
                exact hsound.2.2.1
              · exact hga g hg
            · show s'.list_heads.length = BLOCK_SIZES.length
              rw [← hs']
              exact hlen
          next hll =>
            exact absurd heq (by simp)
      next hidx =>
        -- no class fits: the original layout goes to the fallback
        split at heq
        next r0 fb' hll =>
          obtain ⟨hr0, hs'⟩ : r0 = some p ∧
              (⟨tr.s.list_heads, fb'⟩ : FixedSizeBlockAllocator) = s' := by
            simpa using heq
          subst hr0
          obtain ⟨k, hk, hal⟩ := hv
          have hsound := llAlloc_sound
            (X := classRegions tr.s.list_heads ++ tr.live.map occFS)
            hhe hk hal (by exact hok) hll
          have hocc : occFS ⟨p, sz, al⟩ = ⟨p, (size_align sz al).1⟩ := by
            simp only [occFS, hidx]
          refine ⟨?_, ?_, ?_, ?_⟩
          · show okList hs he (combinedFS ⟨s', ⟨p, sz, al⟩ :: tr.live⟩)
            rw [← hs']
            show okList hs he (fb' ++
              (classRegions tr.s.list_heads ++
                (((⟨p, sz, al⟩ : Grant) :: tr.live).map occFS)))
            rw [List.map_cons, hocc]
            exact okList_shift hsound.1 ⟨le_refl _, le_refl _⟩
          · show ∀ i, ∀ b ∈ s'.list_heads.getD i [], BLOCK_SIZES.getD i 0 ∣ b
            rw [← hs']
            exact hcls
          · intro g hg
            rcases List.mem_cons.mp hg with hg | hg
            · subst hg
              show grantAligned ⟨p, sz, al⟩
              simp only [grantAligned, hidx]
              exact hsound.2.2.2.1
            · exact hga g hg
          · show s'.list_heads.length = BLOCK_SIZES.length
            rw [← hs']
            exact hlen
        next hll =>
          exact absurd heq (by simp)
    next s' heq =>
      obtain rfl : (⟨s', tr.live⟩ : FSTr) = tr' := by simpa using h
      obtain rfl : s' = tr.s := fsAlloc_null heq
      exact ⟨hok, hcls, hga, hlen⟩
    next heq =>
      exact absurd h (by simp)
  | free p sz al =>
    simp only [stepFS] at h
    split_ifs at h with hmem
    cases hd : fsDealloc p sz al tr.s with
    | some s' =>
      rw [hd] at h
      obtain rfl : (⟨s', tr.live.erase ⟨p, sz, al⟩⟩ : FSTr) = tr' := by simpa using h
      have hlive_perm : (tr.live.map occFS).Perm
          (occFS ⟨p, sz, al⟩ :: (tr.live.erase ⟨p, sz, al⟩).map occFS) := by
        simpa using (List.perm_cons_erase hmem).map occFS
      have hsubl : (tr.live.erase ⟨p, sz, al⟩).Sublist tr.live :=
        List.erase_sublist _ _
      simp only [fsDealloc] at hd
      split at hd
      next index hidx =>
        obtain ⟨hi9, -, -, -, -⟩ := list_index_facts hidx
        split_ifs at hd with hassert
        obtain hs' : (⟨tr.s.list_heads.set index
            (p :: tr.s.list_heads.getD index []),
            tr.s.fallback_allocator⟩ : FixedSizeBlockAllocator) = s' := by
          simpa using hd
        have hocc : occFS ⟨p, sz, al⟩ = ⟨p, BLOCK_SIZES.getD index 0⟩ := by
          simp only [occFS, hidx]
        have hpush := classRegions_push tr.s.list_heads hi9 hlen9 p
        refine ⟨?_, ?_, ?_, ?_⟩
        · show okList hs he (combinedFS ⟨s', tr.live.erase ⟨p, sz, al⟩⟩)
          rw [← hs']
          show okList hs he (tr.s.fallback_allocator ++
            (classRegions (tr.s.list_heads.set index
              (p :: tr.s.list_heads.getD index [])) ++
              (tr.live.erase ⟨p, sz, al⟩).map occFS))
          have hold : (combinedFS tr).Perm
              ((⟨p, BLOCK_SIZES.getD index 0⟩ : Region) ::
                (tr.s.fallback_allocator ++
                  (classRegions tr.s.list_heads ++
                    (tr.live.erase ⟨p, sz, al⟩).map occFS))) := by
            show (tr.s.fallback_allocator ++
              (classRegions tr.s.list_heads ++ tr.live.map occFS)).Perm _
            rw [hocc] at hlive_perm
            have q1 : (classRegions tr.s.list_heads ++ tr.live.map occFS).Perm
                ((⟨p, BLOCK_SIZES.getD index 0⟩ : Region) ::
                  (classRegions tr.s.list_heads ++
                    (tr.live.erase ⟨p, sz, al⟩).map occFS)) :=
              List.Perm.trans (hlive_perm.append_left _) List.perm_middle
            exact List.Perm.trans (q1.append_left _) List.perm_middle
          have hnew : (tr.s.fallback_allocator ++
              (classRegions (tr.s.list_heads.set index
                (p :: tr.s.list_heads.getD index [])) ++
                (tr.live.erase ⟨p, sz, al⟩).map occFS)).Perm
              ((⟨p, BLOCK_SIZES.getD index 0⟩ : Region) ::
                (tr.s.fallback_allocator ++
                  (classRegions tr.s.list_heads ++
                    (tr.live.erase ⟨p, sz, al⟩).map occFS))) := by
            have q2 : (classRegions (tr.s.list_heads.set index
                (p :: tr.s.list_heads.getD index [])) ++
                (tr.live.erase ⟨p, sz, al⟩).map occFS).Perm
                ((⟨p, BLOCK_SIZES.getD index 0⟩ : Region) ::
                  (classRegions tr.s.list_heads ++
                    (tr.live.erase ⟨p, sz, al⟩).map occFS)) :=
              hpush.append_right _
            exact List.Perm.trans (q2.append_left _) List.perm_middle
          exact okList_perm hnew.symm (okList_perm hold hok)
        · show ∀ i, ∀ b ∈ s'.list_heads.getD i [], BLOCK_SIZES.getD i 0 ∣ b
          rw [← hs']
          intro i b hb
          by_cases hii : index = i
          · subst hii
            rw [getD_set_self _ _ _ (by omega)] at hb
            rcases List.mem_cons.mp hb with hb | hb
            · subst hb
              have := hga _ hmem
              simpa only [grantAligned, hidx] using this
            · exact hcls index b hb
          · rw [getD_set_ne _ _ hii] at hb
            exact hcls i b hb
        · exact fun g hg => hga g (hsubl.subset hg)
        · show s'.list_heads.length = BLOCK_SIZES.length
          rw [← hs']
          show (tr.s.list_heads.set index _).length = BLOCK_SIZES.length
          rw [List.length_set]
          exact hlen
      next hidx =>
        split_ifs at hd with hp0
        cases hll : llDealloc p sz al tr.s.fallback_allocator with
        | some fb' =>
          rw [hll] at hd
          obtain hs' : (⟨tr.s.list_heads, fb'⟩ : FixedSizeBlockAllocator) = s' := by
            simpa using hd
          have hcons := llDealloc_some hll
          have hocc : occFS ⟨p, sz, al⟩ = ⟨p, (size_align sz al).1⟩ := by
            simp only [occFS, hidx]
          refine ⟨?_, ?_, ?_, ?_⟩
          · show okList hs he (combinedFS ⟨s', tr.live.erase ⟨p, sz, al⟩⟩)
            rw [← hs']
            show okList hs he (fb' ++
              (classRegions tr.s.list_heads ++
                (tr.live.erase ⟨p, sz, al⟩).map occFS))
            rw [hcons]
            have hold : (combinedFS tr).Perm
                ((⟨p, (size_align sz al).1⟩ : Region) ::
                  (tr.s.fallback_allocator ++
                    (classRegions tr.s.list_heads ++
                      (tr.live.erase ⟨p, sz, al⟩).map occFS))) := by
              show (tr.s.fallback_allocator ++
                (classRegions tr.s.list_heads ++ tr.live.map occFS)).Perm _
              rw [hocc] at hlive_perm
              have q1 : (classRegions tr.s.list_heads ++ tr.live.map occFS).Perm
                  ((⟨p, (size_align sz al).1⟩ : Region) ::
                    (classRegions tr.s.list_heads ++
                      (tr.live.erase ⟨p, sz, al⟩).map occFS)) :=
                List.Perm.trans (hlive_perm.append_left _) List.perm_middle
              exact List.Perm.trans (q1.append_left _) List.perm_middle
            exact okList_perm hold hok
          · show ∀ i, ∀ b ∈ s'.list_heads.getD i [], BLOCK_SIZES.getD i 0 ∣ b
            rw [← hs']
            exact hcls
          · exact fun g hg => hga g (hsubl.subset hg)
          · show s'.list_heads.length = BLOCK_SIZES.length
            rw [← hs']
            exact hlen
        | none =>
          rw [hll] at hd
          exact absurd hd (by simp)
    | none =>
      rw [hd] at h
      exact absurd h (by simp)

lemma getD_replicate_nil {n i : Nat} :
    (List.replicate n ([] : List Nat)).getD i [] = [] := by
  rw [List.getD_eq_getElem?_getD, List.getElem?_replicate]
  split <;> rfl

lemma InvFS_init {hs hsz : Nat} {a0 : FixedSizeBlockAllocator}
    (hinit : fsInit hs hsz = some a0) : InvFS hs (hs + hsz) ⟨a0, []⟩ := by
  simp only [fsInit, llInit] at hinit
  cases hadd : add_free_region hs hsz [] with
  | some f0 =>
    rw [hadd] at hinit
    obtain ha0 : (⟨List.replicate BLOCK_SIZES.length [], f0⟩ :
        FixedSizeBlockAllocator) = a0 := by
      simpa using hinit
    obtain ⟨hf0, -, -⟩ := add_free_region_some hadd
    subst hf0
    have hcr : classRegions (List.replicate BLOCK_SIZES.length []) = [] := by decide
    refine ⟨?_, ?_, ?_, ?_⟩
    · show okList hs (hs + hsz) (combinedFS ⟨a0, []⟩)
      rw [← ha0]
      show okList hs (hs + hsz)
        ([⟨hs, hsz⟩] ++ (classRegions (List.replicate BLOCK_SIZES.length []) ++
          ([] : List Grant).map occFS))
      rw [hcr]
      refine ⟨?_, ?_⟩
      · intro r hr
        have hr' : r = ⟨hs, hsz⟩ := by simpa using hr
        subst hr'
        exact ⟨le_refl _, le_refl _⟩
      · simp
    · show ∀ i, ∀ b ∈ a0.list_heads.getD i [], BLOCK_SIZES.getD i 0 ∣ b
      rw [← ha0]
      intro i b hb
      rw [getD_replicate_nil] at hb
      exact absurd hb (by simp)
    · intro g hg
      exact absurd hg (by simp)
    · show a0.list_heads.length = BLOCK_SIZES.length
      rw [← ha0]
      exact List.length_replicate _ _
  | none =>
    rw [hadd] at hinit
    exact absurd hinit (by simp)

/-! ## Bump-allocator facts for the claims -/

lemma bumpAlloc_some {b : BumpAllocator} {sz al p : Nat} {b2 : BumpAllocator}
    (h : BumpAllocator.alloc b sz al = (some p, b2)) :
    p = align_up b.next al ∧ b2.heap_start = b.heap_start ∧ b2.heap_end = b.heap_end ∧
    b2.next = align_up b.next al + sz ∧ b2.allocations = b.allocations + 1 ∧
    align_up b.next al + sz ≤ 2 ^ 64 - 1 ∧ align_up b.next al + sz ≤ b.heap_end := by
  simp only [BumpAllocator.alloc] at h
  split_ifs at h with h1 h2
  · exact absurd h (by simp)
  · obtain ⟨hp, hb⟩ : align_up b.next al = p ∧ _ = b2 := by simpa using h
    exact ⟨hp.symm, by rw [← hb], by rw [← hb], by rw [← hb], by rw [← hb], h1, by omega⟩
  · exact absurd h (by simp)

lemma bumpAllocN_facts :
    ∀ (layouts : List (Nat × Nat)) (b b' : BumpAllocator),
      bumpAllocN layouts b = some b' →
      b'.heap_start = b.heap_start ∧ b'.heap_end = b.heap_end ∧
      b'.allocations = b.allocations + layouts.length := by
  intro layouts
  induction layouts with
  | nil =>
    intro b b' h
    obtain rfl : b = b' := by simpa [bumpAllocN] using h
    simp
  | cons la rest ih =>
    intro b b' h
    obtain ⟨sz, al⟩ := la
    unfold bumpAllocN at h
    split at h
    next p b1 heq =>
      obtain ⟨h1, h2, h3, h4, h5, -, -⟩ := bumpAlloc_some heq
      obtain ⟨g1, g2, g3⟩ := ih b1 b' h
      refine ⟨by rw [g1, h2], by rw [g2, h3], ?_⟩
      rw [g3, h5, List.length_cons]
      omega
    next b1 heq =>
      exact absurd h (by simp)

lemma bumpDeallocN_reset :
    ∀ (N : Nat) (b : BumpAllocator), b.allocations = N → 1 ≤ N →
      bumpDeallocN N b = some ⟨b.heap_start, b.heap_end, b.heap_start, 0⟩ := by
  intro N
  induction N with
  | zero =>
    intro b _ h1
    omega
  | succ n ih =>
    intro b hcount h1
    have hd : BumpAllocator.dealloc b =
        some ⟨b.heap_start, b.heap_end,
          (if n = 0 then b.heap_start else b.next), n⟩ := by
      simp only [BumpAllocator.dealloc]
      rw [if_neg (by omega)]
      have hn : b.allocations - 1 = n := by omega
      rw [hn]
    show bumpDeallocN (n + 1) b = _
    unfold bumpDeallocN
    rw [hd]
    show bumpDeallocN n ⟨b.heap_start, b.heap_end,
      (if n = 0 then b.heap_start else b.next), n⟩ = _
    rcases Nat.eq_zero_or_pos n with hn0 | hn0
    · subst hn0
      rfl
    · rw [ih ⟨b.heap_start, b.heap_end,
        (if n = 0 then b.heap_start else b.next), n⟩ rfl hn0]

lemma InvBump_init {hs hsz : Nat} (hhe : hs + hsz ≤ 2 ^ 63) :
    InvBump ⟨BumpAllocator.init hs hsz, []⟩ := by
  refine ⟨?_, ?_, ?_, ?_, ?_, ?_⟩
  · show hs + hsz ≤ 2 ^ 63
    exact hhe
  · show hs ≤ hs
    exact le_refl _
  · show hs ≤ hs + hsz
    omega
  · intro g hg
    exact absurd hg (by simp)
  · show (([] : List Grant).map userRegion).Pairwise RDisj
    simp
  · rfl

/-! ## Claims about the bump allocator -/

/-- Claim C5: for every request `(size, align)` the bump `alloc` computes
`aligned_next = round_up(next, align)` and fails (returns the null
pointer, leaving the state untouched) exactly when `aligned_next + size`
overflows the address arithmetic or exceeds `heap_end`; otherwise it
succeeds, sets `next = aligned_next + size`, increments the live count,
and returns `aligned_next`. -/
theorem C5_bump_alloc_contract (b : BumpAllocator) (sz al k : Nat)
    (hk : k ≤ 63) (hal : al = 2 ^ k) (hnw : b.next + al ≤ 2 ^ 64) :
    align_up b.next al = (b.next + al - 1) / al * al ∧
    (2 ^ 64 ≤ (b.next + al - 1) / al * al + sz →
      BumpAllocator.alloc b sz al = (none, b)) ∧
    ((b.next + al - 1) / al * al + sz < 2 ^ 64 →
      b.heap_end < (b.next + al - 1) / al * al + sz →
      BumpAllocator.alloc b sz al = (none, b)) ∧
    ((b.next + al - 1) / al * al + sz < 2 ^ 64 →
      (b.next + al - 1) / al * al + sz ≤ b.heap_end →
      BumpAllocator.alloc b sz al =
        (some ((b.next + al - 1) / al * al),
          { b with next := (b.next + al - 1) / al * al + sz,
                   allocations := b.allocations + 1 })) := by
  subst hal
  have heq : align_up b.next (2 ^ k) = (b.next + 2 ^ k - 1) / 2 ^ k * 2 ^ k :=
    align_up_no_wrap b.next k (by omega) hnw
  refine ⟨heq, ?_, ?_, ?_⟩
  · intro h1
    simp only [BumpAllocator.alloc, heq]
    rw [if_neg (by omega)]
  · intro h1 h2
    simp only [BumpAllocator.alloc, heq]
    rw [if_pos (by omega), if_pos (by omega)]
  · intro h1 h2
    simp only [BumpAllocator.alloc, heq]
    rw [if_pos (by omega), if_neg (by omega)]

theorem C5_witness :
    BumpAllocator.alloc (BumpAllocator.init 4096 4096) 100 8 =
      (some 4096, ⟨4096, 8192, 4196, 1⟩) := by
  have h := (C5_bump_alloc_contract (BumpAllocator.init 4096 4096) 100 8 3
    (by omega) (by norm_num) (by decide)).2.2.2 (by decide) (by decide)
  rw [h]
  decide

/-- Claim C10 (implicit): bump `dealloc` decrements the allocation counter
unconditionally, so calling it with zero live allocations underflows (a
panic in checked builds, `none` here) — and that is the only way it can
fail; along any caller-disciplined trace the counter equals the number of
outstanding grants, so as long as deallocations never outnumber
allocations (here: every free names an outstanding grant) the decrement
never underflows. -/
theorem C10_bump_dealloc_underflow :
    (∀ b : BumpAllocator, BumpAllocator.dealloc b = none ↔ b.allocations = 0) ∧
    (∀ hs hsz ops tr, hs + hsz ≤ 2 ^ 63 → (∀ op ∈ ops, ValidOp op) →
      runOps stepBump ⟨BumpAllocator.init hs hsz, []⟩ ops = some tr →
      tr.b.allocations = tr.live.length ∧
      (∀ g ∈ tr.live, BumpAllocator.dealloc tr.b ≠ none)) := by
  have hiff : ∀ b : BumpAllocator, BumpAllocator.dealloc b = none ↔ b.allocations = 0 := by
    intro b
    simp only [BumpAllocator.dealloc]
    split_ifs with h0
    · simp [h0]
    · simp [h0]
  refine ⟨hiff, ?_⟩
  intro hs hsz ops tr hhe hv hrun
  have hinv : InvBump tr :=
    runOps_inv stepBump InvBump (fun s op s' hP hvo hst => stepBump_inv hP hvo hst)
      ops _ tr hv (InvBump_init hhe) hrun
  obtain ⟨-, -, -, -, -, hcount⟩ := hinv
  refine ⟨hcount, ?_⟩
  intro g hg hnone
  have h0 := (hiff tr.b).mp hnone
  have := List.length_pos_of_mem hg
  omega

theorem C10_witness :
    ((⟨4096, 8192, 4112, 1⟩ : BumpAllocator).allocations =
      [(⟨4096, 16, 8⟩ : Grant)].length ∧
    (∀ g ∈ [(⟨4096, 16, 8⟩ : Grant)],
      BumpAllocator.dealloc ⟨4096, 8192, 4112, 1⟩ ≠ none)) ∧
    (BumpAllocator.dealloc ⟨4096, 8192, 4096, 0⟩ = none ↔
      (⟨4096, 8192, 4096, 0⟩ : BumpAllocator).allocations = 0) :=
  ⟨C10_bump_dealloc_underflow.2 4096 4096 [Op.alloc 16 8]
      ⟨⟨4096, 8192, 4112, 1⟩, [⟨4096, 16, 8⟩]⟩
      (by norm_num)
      (by
        intro op hop
        rcases List.mem_singleton.mp hop with rfl
        exact ⟨3, by omega, rfl⟩)
      (by decide),
    C10_bump_dealloc_underflow.1 ⟨4096, 8192, 4096, 0⟩⟩

/-- Claim C7: after any `N ≥ 1` successful bump allocations from an
initialized heap followed by `N` deallocations (bump `dealloc` ignores
its pointer and layout arguments, so every order of the matching frees
performs these same `N` counter decrements), the live count is zero and
the cursor is back at `heap_start`; a following successful allocation is
granted at `round_up(heap_start, align)` again. -/
theorem C7_bump_collective_reclaim (hs hsz : Nat) (layouts : List (Nat × Nat))
    (b' : BumpAllocator) (hN : 1 ≤ layouts.length)
    (hrun : bumpAllocN layouts (BumpAllocator.init hs hsz) = some b') :
    ∃ bf, bumpDeallocN layouts.length b' = some bf ∧
      bf.allocations = 0 ∧ bf.next = hs ∧
      (∀ sz al k p b2, k ≤ 63 → al = 2 ^ k → hs + al ≤ 2 ^ 64 →
        BumpAllocator.alloc bf sz al = (some p, b2) →
        p = (hs + al - 1) / al * al) := by
  obtain ⟨g1, g2, g3⟩ := bumpAllocN_facts layouts _ b' hrun
  have hcount : b'.allocations = layouts.length := by
    have h0 : (BumpAllocator.init hs hsz).allocations = 0 := rfl
    omega
  have hreset := bumpDeallocN_reset layouts.length b' hcount hN
  refine ⟨⟨b'.heap_start, b'.heap_end, b'.heap_start, 0⟩, hreset, rfl, ?_, ?_⟩
  · show b'.heap_start = hs
    rw [g1]
    rfl
  · intro sz al k p b2 hk hal hnw halloc
    obtain ⟨hp, -, -, -, -, -, -⟩ := bumpAlloc_some halloc
    have hnext : (⟨b'.heap_start, b'.heap_end, b'.heap_start, 0⟩ :
        BumpAllocator).next = hs := by
      show b'.heap_start = hs
      rw [g1]
      rfl
    rw [hp, hnext]
    subst hal
    exact align_up_no_wrap hs k (by omega) hnw

theorem C7_witness :
    ∃ bf, bumpDeallocN 2 ⟨4096, 8192, 4128, 2⟩ = some bf ∧
      bf.allocations = 0 ∧ bf.next = 4096 ∧
      (∀ sz al k p b2, k ≤ 63 → al = 2 ^ k → 4096 + al ≤ 2 ^ 64 →
        BumpAllocator.alloc bf sz al = (some p, b2) →
        p = (4096 + al - 1) / al * al) :=
  C7_bump_collective_reclaim 4096 4096 [(16, 8), (16, 8)] ⟨4096, 8192, 4128, 2⟩
    (by norm_num) (by decide)

/-! ## Alignment claim -/

/-- Claim C2: for every allocation request `(size, align)` with `align` a
power of two, a successful `alloc` returns an address with
`address mod align = 0` — for the bump strategy and the free-list
strategy at any state, and for the size-classed strategy at every state
reachable from an initialized allocator. -/
theorem C2_alignment :
    (∀ b sz al k p b2, k ≤ 63 → al = 2 ^ k →
      BumpAllocator.alloc b sz al = (some p, b2) → p % al = 0) ∧
    (∀ sz al k p l l', k ≤ 63 → al = 2 ^ k →
      llAlloc sz al l = some (some p, l') → p % al = 0) ∧
    (∀ hs hsz a0 ops tr sz al k p s', hs + hsz ≤ 2 ^ 63 → k ≤ 63 → al = 2 ^ k →
      (∀ op ∈ ops, ValidOp op) → fsInit hs hsz = some a0 →
      runOps stepFS ⟨a0, []⟩ ops = some tr →
      fsAlloc sz al tr.s = some (some p, s') → p % al = 0) := by
  have hmod : ∀ al k p, k ≤ 63 → al = 2 ^ k → al ∣ p → p % al = 0 := by
    intro al k p _ _ hdvd
    exact Nat.mod_eq_zero_of_dvd hdvd
  refine ⟨?_, ?_, ?_⟩
  · intro b sz al k p b2 hk hal halloc
    obtain ⟨hp, -, -, -, -, -, -⟩ := bumpAlloc_some halloc
    refine hmod al k p hk hal ?_
    rw [hp, hal]
    exact align_up_dvd b.next k (by omega)
  · intro sz al k p l l' hk hal hll
    obtain ⟨r, rest, hfind, -⟩ := llAlloc_some_shape hll
    obtain ⟨-, -, -, -, -, hacc⟩ := find_region_some hfind
    rw [alloc_from_region_some] at hacc
    obtain ⟨hsa2, hm⟩ := size_align_align sz al k hk hal
    refine hmod al k p hk hal ?_
    have hd2 : (size_align sz al).2 ∣ p := by
      rw [hacc.1, hsa2]
      exact align_up_dvd r.addr (max k 3) (by omega)
    refine dvd_trans ?_ hd2
    rw [hsa2, hal]
    exact Nat.pow_dvd_pow 2 (Nat.le_max_left k 3)
  · intro hs hsz a0 ops tr sz al k p s' hhe hk hal hv hinit hrun hfa
    have hinv : InvFS hs (hs + hsz) tr :=
      runOps_inv stepFS (InvFS hs (hs + hsz))
        (fun s op s2 hP hvo hst => stepFS_inv hhe hP hvo hst) ops _ tr hv
        (InvFS_init hinit) hrun
    have hstep : stepFS tr (.alloc sz al) = some ⟨s', ⟨p, sz, al⟩ :: tr.live⟩ := by
      simp only [stepFS, hfa]
    have hinv' := stepFS_inv hhe hinv
      (show ValidOp (Op.alloc sz al) from ⟨k, hk, hal⟩) hstep
    have hga : grantAligned ⟨p, sz, al⟩ := hinv'.2.2.1 ⟨p, sz, al⟩ (by simp)
    refine hmod al k p hk hal ?_
    cases hidx : list_index sz al with
    | none =>
      have hdvd : (size_align sz al).2 ∣ p := by
        simpa only [grantAligned, hidx] using hga
      obtain ⟨hsa2, hm⟩ := size_align_align sz al k hk hal
      refine dvd_trans ?_ hdvd
      rw [hsa2, hal]
      exact Nat.pow_dvd_pow 2 (Nat.le_max_left k 3)
    | some i =>
      have hCp : BLOCK_SIZES.getD i 0 ∣ p := by
        simpa only [grantAligned, hidx] using hga
      obtain ⟨hi9, hile, -, -, -⟩ := list_index_facts hidx
      obtain ⟨kC, hkC, hCpow⟩ := block_size_valid hi9
      refine dvd_trans ?_ hCp
      rw [hal, hCpow]
      apply Nat.pow_dvd_pow
      rw [← Nat.pow_le_pow_iff_right (a := 2) (by norm_num), ← hal, ← hCpow]
      calc al ≤ max sz al := Nat.le_max_right sz al
        _ ≤ BLOCK_SIZES.getD i 0 := hile

theorem C2_witness :
    (4096 % 8 = 0) ∧ (4096 % 8 = 0) ∧ (4096 % 16 = 0) :=
  ⟨C2_alignment.1 (BumpAllocator.init 4096 4096) 16 8 3 4096 ⟨4096, 8192, 4112, 1⟩
      (by omega) rfl (by decide),
    C2_alignment.2.1 20 8 3 4096 [⟨4096, 4096⟩] [⟨4120, 4072⟩]
      (by omega) rfl (by decide),
    C2_alignment.2.2 4096 4096 ⟨List.replicate 9 [], [⟨4096, 4096⟩]⟩ []
      ⟨⟨List.replicate 9 [], [⟨4096, 4096⟩]⟩, []⟩ 16 16 4 4096
      ⟨List.replicate 9 [], [⟨4112, 4080⟩]⟩
      (by norm_num) (by omega) rfl
      (by intro op hop; exact absurd hop (by simp))
      (by decide) (by decide) (by decide)⟩

/-! ## Free-list search claim -/

/-- Claim C3: the free-list search is first-fit from the head.  A
candidate region is accepted exactly when
`alloc_start = round_up(region.start, align)` satisfies
`alloc_start + size ≤ region.end` and the leftover is zero or at least
one node (16 bytes); a rejected candidate only makes the traversal
continue (the found region is preceded exactly by rejected candidates);
`alloc` returns null, with the list unchanged, exactly when no candidate
is acceptable. -/
theorem C3_first_fit_acceptance :
    (∀ (r : Region) (size align k s : Nat), k ≤ 63 → align = 2 ^ k →
      r.addr + r.size ≤ 2 ^ 63 →
      (alloc_from_region r size align = some s ↔
        (s = align_up r.addr align ∧
          align_up r.addr align + size ≤ r.end_addr ∧
          (r.end_addr - (align_up r.addr align + size) = 0 ∨
            16 ≤ r.end_addr - (align_up r.addr align + size))))) ∧
    (∀ (size align : Nat) (l rest : List Region) (r : Region) (s : Nat),
      find_region size align l = some (r, s, rest) →
      ∃ l1 l2, l = l1 ++ r :: l2 ∧ rest = l1 ++ l2 ∧
        (∀ x ∈ l1, alloc_from_region x size align = none) ∧
        alloc_from_region r size align = some s) ∧
    (∀ (sz al : Nat) (l l' : List Region),
      llAlloc sz al l = some (none, l') → l' = l) ∧
    (∀ (sz al : Nat) (l : List Region),
      llAlloc sz al l = some (none, l) ↔
        ∀ x ∈ l, alloc_from_region x (size_align sz al).1 (size_align sz al).2 = none) := by
  refine ⟨?_, ?_, ?_, ?_⟩
  · intro r size align k s hk hal hr
    rw [alloc_from_region_some]
    constructor
    · rintro ⟨h1, -, h3, h4⟩
      exact ⟨h1, h3, h4⟩
    · rintro ⟨h1, h3, h4⟩
      refine ⟨h1, ?_, h3, h4⟩
      have : r.end_addr = r.addr + r.size := rfl
      omega
  · intro size align l rest r s h
    exact find_region_some h
  · intro sz al l l' h
    exact (llAlloc_fail h).1
  · intro sz al l
    constructor
    · intro h
      exact (llAlloc_fail h).2
    · intro h
      exact llAlloc_fail_of h

theorem C3_witness :
    (alloc_from_region ⟨4096, 64⟩ 32 8 = some 4096 ↔
      (4096 = align_up 4096 8 ∧
        align_up 4096 8 + 32 ≤ Region.end_addr ⟨4096, 64⟩ ∧
        (Region.end_addr ⟨4096, 64⟩ - (align_up 4096 8 + 32) = 0 ∨
          16 ≤ Region.end_addr ⟨4096, 64⟩ - (align_up 4096 8 + 32)))) ∧
    (∃ l1 l2, [(⟨4096, 24⟩ : Region), ⟨4120, 4072⟩] = l1 ++ (⟨4120, 4072⟩ : Region) :: l2 ∧
      [(⟨4096, 24⟩ : Region)] = l1 ++ l2 ∧
      (∀ x ∈ l1, alloc_from_region x 32 8 = none) ∧
      alloc_from_region ⟨4120, 4072⟩ 32 8 = some 4120) ∧
    (llAlloc 8192 8 [⟨4096, 32⟩] = some (none, [⟨4096, 32⟩]) ↔
      ∀ x ∈ [(⟨4096, 32⟩ : Region)],
        alloc_from_region x (size_align 8192 8).1 (size_align 8192 8).2 = none) :=
  ⟨C3_first_fit_acceptance.1 ⟨4096, 64⟩ 32 8 3 4096 (by omega) rfl (by norm_num),
    C3_first_fit_acceptance.2.1 32 8 [⟨4096, 24⟩, ⟨4120, 4072⟩] [⟨4096, 24⟩]
      ⟨4120, 4072⟩ 4120 (by decide),
    C3_first_fit_acceptance.2.2.2 8192 8 [⟨4096, 32⟩]⟩

/-! ## Size-class selection and allocation-path claim -/

/-- Claim C4: `list_index` returns the index of the smallest class at
least `max(size, align)`, and no class exactly when that exceeds 2048;
on `alloc`, a fitting class with a non-empty free list pops and returns
its head; an empty class list requests exactly one `(class_size,
class_size)` block from the fallback; with no fitting class the original
layout is delegated unchanged to the fallback. -/
theorem C4_size_class_paths :
    (∀ sz al i, list_index sz al = some i ↔
      (i < 9 ∧ max sz al ≤ BLOCK_SIZES.getD i 0 ∧
        ∀ j < i, BLOCK_SIZES.getD j 0 < max sz al)) ∧
    (∀ sz al, list_index sz al = none ↔ 2048 < max sz al) ∧
    (∀ sz al i node rest (a : FixedSizeBlockAllocator),
      list_index sz al = some i → a.list_heads.getD i [] = node :: rest →
      fsAlloc sz al a =
        some (some node, ⟨a.list_heads.set i rest, a.fallback_allocator⟩)) ∧
    (∀ sz al i (a : FixedSizeBlockAllocator),
      list_index sz al = some i → a.list_heads.getD i [] = [] →
      fsAlloc sz al a =
        (llAlloc (BLOCK_SIZES.getD i 0) (BLOCK_SIZES.getD i 0)
          a.fallback_allocator).map
            (fun rf => (rf.1, ⟨a.list_heads, rf.2⟩))) ∧
    (∀ sz al (a : FixedSizeBlockAllocator),
      list_index sz al = none →
      fsAlloc sz al a =
        (llAlloc sz al a.fallback_allocator).map
          (fun rf => (rf.1, ⟨a.list_heads, rf.2⟩))) := by
  refine ⟨?_, ?_, ?_, ?_, ?_⟩
  · intro sz al i
    constructor
    · intro h
      obtain ⟨h1, h2, -, -, h5⟩ := list_index_facts h
      exact ⟨h1, h2, h5⟩
    · rintro ⟨h1, h2, h3⟩
      exact list_index_of h1 h2 h3
  · intro sz al
    constructor
    · exact list_index_none
    · intro h
      cases hidx : list_index sz al with
      | none => rfl
      | some i =>
        obtain ⟨-, h2, -, h4, -⟩ := list_index_facts hidx
        omega
  · intro sz al i node rest a hidx hheads
    simp only [fsAlloc, hidx, hheads]
  · intro sz al i a hidx hheads
    simp only [fsAlloc, hidx, hheads]
    cases hll : llAlloc (BLOCK_SIZES.getD i 0) (BLOCK_SIZES.getD i 0)
        a.fallback_allocator with
    | some v =>
      obtain ⟨r0, fb'⟩ := v
      simp
    | none =>
      simp
  · intro sz al a hidx
    simp only [fsAlloc, hidx]
    cases hll : llAlloc sz al a.fallback_allocator with
    | some v =>
      obtain ⟨r0, fb'⟩ := v
      simp
    | none =>
      simp

theorem C4_witness :
    (list_index 20 8 = some 2 ↔
      (2 < 9 ∧ max 20 8 ≤ BLOCK_SIZES.getD 2 0 ∧
        ∀ j < 2, BLOCK_SIZES.getD j 0 < max 20 8)) ∧
    (list_index 4000 8 = none ↔ 2048 < max 4000 8) ∧
    (fsAlloc 20 8 ⟨[[], [], [7000], [], [], [], [], [], []], [⟨4096, 4096⟩]⟩ =
      some (some 7000,
        ⟨[[], [], [], [], [], [], [], [], []], [⟨4096, 4096⟩]⟩)) ∧
    (fsAlloc 20 8 ⟨List.replicate 9 [], [⟨4096, 4096⟩]⟩ =
      (llAlloc (BLOCK_SIZES.getD 2 0) (BLOCK_SIZES.getD 2 0) [⟨4096, 4096⟩]).map
        (fun rf => (rf.1, ⟨List.replicate 9 [], rf.2⟩))) ∧
    (fsAlloc 4000 8 ⟨List.replicate 9 [], [⟨4096, 4096⟩]⟩ =
      (llAlloc 4000 8 [⟨4096, 4096⟩]).map
        (fun rf => (rf.1, ⟨List.replicate 9 [], rf.2⟩))) :=
  ⟨C4_size_class_paths.1 20 8 2,
    C4_size_class_paths.2.1 4000 8,
    C4_size_class_paths.2.2.1 20 8 2 7000 []
      ⟨[[], [], [7000], [], [], [], [], [], []], [⟨4096, 4096⟩]⟩
      (by decide) (by decide),
    C4_size_class_paths.2.2.2.1 20 8 2 ⟨List.replicate 9 [], [⟨4096, 4096⟩]⟩
      (by decide) (by decide),
    C4_size_class_paths.2.2.2.2 4000 8 ⟨List.replicate 9 [], [⟨4096, 4096⟩]⟩
      (by decide)⟩

/-! ## Exhaustion claim -/

lemma alloc_from_region_none {r : Region} {size align : Nat}
    (h : r.end_addr < align_up r.addr align + size) :
    alloc_from_region r size align = none := by
  simp only [alloc_from_region]
  split_ifs with h1 h2 h3 <;> first | rfl | omega

lemma llAlloc_exhaust {sz al k hs he : Nat} {l : List Region}
    (hk : k ≤ 63) (hal : al = 2 ^ k) (hhe : he ≤ 2 ^ 63)
    (hin : ∀ r ∈ l, inHeap hs he r) (hsz : he - hs < sz) :
    llAlloc sz al l = some (none, l) := by
  apply llAlloc_fail_of
  intro r hr
  apply alloc_from_region_none
  obtain ⟨hsa2, hm⟩ := size_align_align sz al k hk hal
  have hge : r.addr ≤ align_up r.addr (size_align sz al).2 := by
    rw [hsa2]
    apply align_up_ge _ _ (by omega)
    have h1 := (hin r hr).2
    have h2 : (2 : Nat) ^ max k 3 ≤ 2 ^ 63 :=
      Nat.pow_le_pow_right (by norm_num) (by omega)
    have h64 : (2 : Nat) ^ 63 + 2 ^ 63 = 2 ^ 64 := by norm_num
    omega
  have hs1 := roundUp_ge sz (max al 8) (by omega)
  have hge2 : sz ≤ (size_align sz al).1 := by
    show sz ≤ max (pad_to_align sz (max al 8)) 16
    have := Nat.le_max_left (pad_to_align sz (max al 8)) 16
    unfold pad_to_align
    omega
  have h1 := (hin r hr).1
  have h2 := (hin r hr).2
  show r.end_addr < align_up r.addr (size_align sz al).2 + (size_align sz al).1
  have he1 : r.end_addr = r.addr + r.size := rfl
  omega

/-- Claim C6: a single request larger than the whole heap fails softly in
every strategy: the bump allocator returns null with `next` and the
count untouched; the free-list allocator returns null with the free list
unchanged (and does not panic); the size-classed allocator, at any
reachable state of an initialized heap, returns null with class lists
and fallback unchanged (and does not panic). -/
theorem C6_exhaustion :
    (∀ (b : BumpAllocator) sz al k, k ≤ 63 → al = 2 ^ k →
      b.heap_start ≤ b.next → b.next + al ≤ 2 ^ 64 →
      b.heap_end - b.heap_start < sz →
      BumpAllocator.alloc b sz al = (none, b)) ∧
    (∀ sz al k hs he (l : List Region), k ≤ 63 → al = 2 ^ k → he ≤ 2 ^ 63 →
      (∀ r ∈ l, inHeap hs he r) → he - hs < sz →
      llAlloc sz al l = some (none, l)) ∧
    (∀ hs hsz a0 ops tr sz al k, hs + hsz ≤ 2 ^ 63 → k ≤ 63 → al = 2 ^ k →
      (∀ op ∈ ops, ValidOp op) → fsInit hs hsz = some a0 →
      runOps stepFS ⟨a0, []⟩ ops = some tr → hsz < sz →
      fsAlloc sz al tr.s = some (none, tr.s)) := by
  refine ⟨?_, ?_, ?_⟩
  · intro b sz al k hk hal hsn hnw hsz
    have hge : b.next ≤ align_up b.next al := by
      subst hal
      exact align_up_ge _ _ (by omega) hnw
    simp only [BumpAllocator.alloc]
    split_ifs with h1 h2
    · rfl
    · omega
    · rfl
  · intro sz al k hs he l hk hal hhe hin hsz
    exact llAlloc_exhaust hk hal hhe hin hsz
  · intro hs hsz a0 ops tr sz al k hhe hk hal hv hinit hrun hsz2
    have hinv : InvFS hs (hs + hsz) tr :=
      runOps_inv stepFS (InvFS hs (hs + hsz))
        (fun s op s2 hP hvo hst => stepFS_inv hhe hP hvo hst) ops _ tr hv
        (InvFS_init hinit) hrun
    obtain ⟨hok, hcls, hga, hlen⟩ := hinv
    have hfb_in : ∀ r ∈ tr.s.fallback_allocator, inHeap hs (hs + hsz) r := by
      intro r hr
      exact hok.1 r (List.mem_append_left _ hr)
    cases hidx : list_index sz al with
    | some i =>
      obtain ⟨hi9, hile, hi8, -, -⟩ := list_index_facts hidx
      have hszle : sz ≤ max sz al := Nat.le_max_left sz al
      have hheads : tr.s.list_heads.getD i [] = [] := by
        cases hh : tr.s.list_heads.getD i [] with
        | nil => rfl
        | cons b btl =>
          have hbmem : b ∈ tr.s.list_heads.getD i [] := by
            rw [hh]
            simp
          have hreg := classRegions_mem hi9 hbmem
          have hin2 : inHeap hs (hs + hsz) ⟨b, BLOCK_SIZES.getD i 0⟩ :=
            hok.1 _ (List.mem_append_right _ (List.mem_append_left _ hreg))
          have hb1 : hs ≤ b := hin2.1
          have hb2 : b + BLOCK_SIZES.getD i 0 ≤ hs + hsz := hin2.2
          omega
      obtain ⟨kC, hkC, hCpow⟩ := block_size_valid hi9
      have hx := @llAlloc_exhaust (BLOCK_SIZES.getD i 0) (BLOCK_SIZES.getD i 0)
        kC hs (hs + hsz) tr.s.fallback_allocator hkC hCpow hhe hfb_in (by omega)
      simp only [fsAlloc, hidx, hheads, hx]
    | none =>
      have hx := @llAlloc_exhaust sz al k hs (hs + hsz) tr.s.fallback_allocator
        hk hal hhe hfb_in (by omega)
      simp only [fsAlloc, hidx, hx]

theorem C6_witness :
    (BumpAllocator.alloc (BumpAllocator.init 4096 4096) 8193 8 =
      (none, BumpAllocator.init 4096 4096)) ∧
    (llAlloc 8193 8 [⟨4096, 4096⟩] = some (none, [⟨4096, 4096⟩])) ∧
    (fsAlloc 8193 8 (⟨List.replicate 9 [], [⟨4096, 4096⟩]⟩ :
        FixedSizeBlockAllocator) =
      some (none, ⟨List.replicate 9 [], [⟨4096, 4096⟩]⟩)) :=
  ⟨C6_exhaustion.1 (BumpAllocator.init 4096 4096) 8193 8 3 (by omega) rfl
      (le_refl _) (by decide) (by decide),
    C6_exhaustion.2.1 8193 8 3 4096 8192 [⟨4096, 4096⟩] (by omega) rfl
      (by norm_num)
      (by
        intro r hr
        rcases List.mem_singleton.mp hr with rfl
        exact ⟨by norm_num, by norm_num⟩)
      (by norm_num),
    C6_exhaustion.2.2 4096 4096 ⟨List.replicate 9 [], [⟨4096, 4096⟩]⟩ []
      ⟨⟨List.replicate 9 [], [⟨4096, 4096⟩]⟩, []⟩ 8193 8 3
      (by norm_num) (by omega) rfl
      (by intro op hop; exact absurd hop (by simp))
      (by decide) (by decide) (by norm_num)⟩

/-! ## Size-class round-trip claim -/

/-- Claim C9: for a class-fitting layout, repeated allocate-then-free
rounds consume fallback memory at most once.  If the class list starts
empty and the first round succeeds, that round performs exactly one
fallback allocation of one block; the state after every later round is
identical to the state after the first round (in particular the fallback
is never touched again), for every iteration count. -/
theorem C9_round_trip_bounded (sz al i : Nat) (a st1 : FixedSizeBlockAllocator)
    (hidx : list_index sz al = some i)
    (hlen : a.list_heads.length = 9)
    (hempty : a.list_heads.getD i [] = [])
    (h1 : fsRound sz al a = some st1) :
    (∃ p fb', llAlloc (BLOCK_SIZES.getD i 0) (BLOCK_SIZES.getD i 0)
        a.fallback_allocator = some (some p, fb') ∧
      st1 = ⟨a.list_heads.set i [p], fb'⟩) ∧
    fsRound sz al st1 = some st1 ∧
    (∀ n, 1 ≤ n → fsRounds sz al n a = some st1) := by
  obtain ⟨hi9, -, hi8, -, -⟩ := list_index_facts hidx
  have hshape : ∃ p fb', llAlloc (BLOCK_SIZES.getD i 0) (BLOCK_SIZES.getD i 0)
      a.fallback_allocator = some (some p, fb') ∧
      st1 = ⟨a.list_heads.set i [p], fb'⟩ := by
    simp only [fsRound, fsAlloc, hidx, hempty] at h1
    cases hll : llAlloc (BLOCK_SIZES.getD i 0) (BLOCK_SIZES.getD i 0)
        a.fallback_allocator with
    | some v =>
      obtain ⟨r0, fb'⟩ := v
      rw [hll] at h1
      cases r0 with
      | some p =>
        refine ⟨p, fb', rfl, ?_⟩
        simp only [fsDealloc, hidx] at h1
        rw [if_pos ⟨hi8, hi8⟩] at h1
        have := (Option.some.inj h1)
        rw [← this, hempty]
      | none =>
        exact absurd h1 (by simp)
    | none =>
      rw [hll] at h1
      exact absurd h1 (by simp)
  obtain ⟨p, fb', hll, hst1⟩ := hshape
  have hfix : fsRound sz al st1 = some st1 := by
    subst hst1
    have hget : ((a.list_heads.set i [p]).getD i []) = [p] :=
      getD_set_self a.list_heads i [p] (by omega)
    simp only [fsRound, fsAlloc, hidx, hget]
    simp only [fsDealloc, hidx]
    rw [if_pos ⟨hi8, hi8⟩]
    have hlt : i < (a.list_heads.set i [p]).length := by
      rw [List.length_set]
      omega
    rw [getD_set_self _ _ _ hlt, List.set_set, List.set_set]
  refine ⟨⟨p, fb', hll, hst1⟩, hfix, ?_⟩
  have hiter : ∀ m, fsRounds sz al m st1 = some st1 := by
    intro m
    induction m with
    | zero => rfl
    | succ n ih =>
      show fsRounds sz al (n + 1) st1 = some st1
      unfold fsRounds
      rw [hfix]
      exact ih
  intro n hn
  cases n with
  | zero => omega
  | succ m =>
    show fsRounds sz al (m + 1) a = some st1
    unfold fsRounds
    rw [h1]
    exact hiter m

theorem C9_witness :
    (∃ p fb', llAlloc (BLOCK_SIZES.getD 1 0) (BLOCK_SIZES.getD 1 0)
        [(⟨4096, 4096⟩ : Region)] = some (some p, fb') ∧
      (⟨(List.replicate 9 []).set 1 [4096], [⟨4112, 4080⟩]⟩ :
          FixedSizeBlockAllocator) =
        ⟨(List.replicate 9 []).set 1 [p], fb'⟩) ∧
    fsRound 16 8 ⟨(List.replicate 9 []).set 1 [4096], [⟨4112, 4080⟩]⟩ =
      some ⟨(List.replicate 9 []).set 1 [4096], [⟨4112, 4080⟩]⟩ ∧
    (∀ n, 1 ≤ n → fsRounds 16 8 n ⟨List.replicate 9 [], [⟨4096, 4096⟩]⟩ =
      some ⟨(List.replicate 9 []).set 1 [4096], [⟨4112, 4080⟩]⟩) :=
  C9_round_trip_bounded 16 8 1 ⟨List.replicate 9 [], [⟨4096, 4096⟩]⟩
    ⟨(List.replicate 9 []).set 1 [4096], [⟨4112, 4080⟩]⟩
    (by decide) (by decide) (by decide) (by decide)

/-! ## Disjointness claim -/

lemma size_align_ge (sz al : Nat) : sz ≤ (size_align sz al).1 := by
  show sz ≤ max (pad_to_align sz (max al 8)) 16
  have h1 := roundUp_ge sz (max al 8)
    (Nat.lt_of_lt_of_le (by norm_num) (Nat.le_max_right al 8))
  have h2 := Nat.le_max_left (pad_to_align sz (max al 8)) 16
  unfold pad_to_align
  omega

lemma pairwise_user_of_occ {live : List Grant} {occ : Grant → Region}
    (hocc : ∀ g, (occ g).addr = g.ptr ∧ g.sz ≤ (occ g).size)
    (h : (live.map occ).Pairwise RDisj) :
    (live.map userRegion).Pairwise RDisj := by
  rw [List.pairwise_map] at h ⊢
  refine h.imp ?_
  intro g g' hd
  obtain ⟨ha, hb⟩ := hocc g
  obtain ⟨ha', hb'⟩ := hocc g'
  unfold RDisj at hd ⊢
  unfold userRegion
  simp only []
  omega

/-- Claim C1: along every caller-disciplined trace (the driver frees only
pointers it was granted, with the layout supplied at allocation time,
and never frees a grant twice — enforced by the ghost grant list of the
trace semantics), the `[address, address + size)` ranges of the
simultaneously outstanding grants are pairwise non-overlapping, for the
bump, free-list, and size-classed strategies. -/
theorem C1_disjointness :
    (∀ hs hsz ops tr, hs + hsz ≤ 2 ^ 63 → (∀ op ∈ ops, ValidOp op) →
      runOps stepBump ⟨BumpAllocator.init hs hsz, []⟩ ops = some tr →
      (tr.live.map userRegion).Pairwise RDisj) ∧
    (∀ hs hsz f0 ops tr, hs + hsz ≤ 2 ^ 63 → (∀ op ∈ ops, ValidOp op) →
      llInit hs hsz = some f0 →
      runOps stepLL ⟨f0, []⟩ ops = some tr →
      (tr.live.map userRegion).Pairwise RDisj) ∧
    (∀ hs hsz a0 ops tr, hs + hsz ≤ 2 ^ 63 → (∀ op ∈ ops, ValidOp op) →
      fsInit hs hsz = some a0 →
      runOps stepFS ⟨a0, []⟩ ops = some tr →
      (tr.live.map userRegion).Pairwise RDisj) := by
  refine ⟨?_, ?_, ?_⟩
  · intro hs hsz ops tr hhe hv hrun
    have hinv : InvBump tr :=
      runOps_inv stepBump InvBump
        (fun s op s' hP hvo hst => stepBump_inv hP hvo hst) ops _ tr hv
        (InvBump_init hhe) hrun
    exact hinv.2.2.2.2.1
  · intro hs hsz f0 ops tr hhe hv hinit hrun
    have hinv : InvLL hs (hs + hsz) tr :=
      runOps_inv stepLL (InvLL hs (hs + hsz))
        (fun s op s' hP hvo hst => stepLL_inv hhe hP hvo hst) ops _ tr hv
        (InvLL_init hhe hinit) hrun
    have hocc_pw : (tr.live.map occLL).Pairwise RDisj :=
      hinv.1.2.sublist (List.sublist_append_right _ _)
    refine pairwise_user_of_occ ?_ hocc_pw
    intro g
    exact ⟨rfl, size_align_ge g.sz g.al⟩
  · intro hs hsz a0 ops tr hhe hv hinit hrun
    have hinv : InvFS hs (hs + hsz) tr :=
      runOps_inv stepFS (InvFS hs (hs + hsz))
        (fun s op s' hP hvo hst => stepFS_inv hhe hP hvo hst) ops _ tr hv
        (InvFS_init hinit) hrun
    have hsub : (tr.live.map occFS).Sublist (combinedFS tr) :=
      ((List.sublist_append_right (classRegions tr.s.list_heads) _).trans
        (List.sublist_append_right tr.s.fallback_allocator _))
    have hocc_pw : (tr.live.map occFS).Pairwise RDisj :=
      hinv.1.2.sublist hsub
    refine pairwise_user_of_occ ?_ hocc_pw
    intro g
    constructor
    · show (occFS g).addr = g.ptr
      unfold occFS
      split <;> rfl
    · show g.sz ≤ (occFS g).size
      unfold occFS
      split
      next i hidx =>
        obtain ⟨-, hile, -, -, -⟩ := list_index_facts hidx
        show g.sz ≤ BLOCK_SIZES.getD i 0
        have := Nat.le_max_left g.sz g.al
        omega
      next hidx =>
        exact size_align_ge g.sz g.al

theorem C1_witness :
    (([(⟨4112, 16, 8⟩ : Grant), ⟨4096, 16, 8⟩].map userRegion).Pairwise RDisj) ∧
    (([(⟨4120, 20, 8⟩ : Grant), ⟨4096, 20, 8⟩].map userRegion).Pairwise RDisj) ∧
    (([(⟨4112, 16, 8⟩ : Grant), ⟨4096, 16, 8⟩].map userRegion).Pairwise RDisj) :=
  ⟨C1_disjointness.1 4096 4096 [Op.alloc 16 8, Op.alloc 16 8]
      ⟨⟨4096, 8192, 4128, 2⟩, [⟨4112, 16, 8⟩, ⟨4096, 16, 8⟩]⟩
      (by norm_num)
      (by
        intro op hop
        rcases List.mem_cons.mp hop with rfl | hop
        · exact ⟨3, by omega, rfl⟩
        · rcases List.mem_singleton.mp hop with rfl
          exact ⟨3, by omega, rfl⟩)
      (by decide),
    C1_disjointness.2.1 4096 4096 [⟨4096, 4096⟩] [Op.alloc 20 8, Op.alloc 20 8]
      ⟨[⟨4144, 4048⟩], [⟨4120, 20, 8⟩, ⟨4096, 20, 8⟩]⟩
      (by norm_num)
      (by
        intro op hop
        rcases List.mem_cons.mp hop with rfl | hop
        · exact ⟨3, by omega, rfl⟩
        · rcases List.mem_singleton.mp hop with rfl
          exact ⟨3, by omega, rfl⟩)
      (by decide) (by decide),
    C1_disjointness.2.2 4096 4096 ⟨List.replicate 9 [], [⟨4096, 4096⟩]⟩
      [Op.alloc 16 8, Op.alloc 16 8]
      ⟨⟨List.replicate 9 [], [⟨4128, 4064⟩]⟩, [⟨4112, 16, 8⟩, ⟨4096, 16, 8⟩]⟩
      (by norm_num)
      (by
        intro op hop
        rcases List.mem_cons.mp hop with rfl | hop
        · exact ⟨3, by omega, rfl⟩
        · rcases List.mem_singleton.mp hop with rfl
          exact ⟨3, by omega, rfl⟩)
      (by decide) (by decide)⟩

/-! ## Free-list reuse round trip -/

lemma llAlloc_step {sz al p : Nat} {l rest : List Region} {r : Region}
    (hfind : find_region (size_align sz al).1 (size_align sz al).2 l =
      some (r, p, rest))
    (hchk : p + (size_align sz al).1 ≤ 2 ^ 64 - 1) :
    (r.end_addr - (p + (size_align sz al).1) = 0 →
      llAlloc sz al l = some (some p, rest)) ∧
    (∀ l2, 0 < r.end_addr - (p + (size_align sz al).1) →
      add_free_region (p + (size_align sz al).1)
        (r.end_addr - (p + (size_align sz al).1)) rest = some l2 →
      llAlloc sz al l = some (some p, l2)) := by
  constructor
  · intro h0
    simp only [llAlloc]
    split
    next r' s' rest' hfind2 =>
      rw [hfind] at hfind2
      obtain ⟨h1, h2, h3⟩ : r = r' ∧ p = s' ∧ rest = rest' := by
        simpa using hfind2
      subst h1
      subst h2
      subst h3
      rw [if_pos hchk, if_neg (by omega)]
    next hfind2 =>
      rw [hfind2] at hfind
      exact absurd hfind (by simp)
  · intro l2 hpos hadd
    simp only [llAlloc]
    split
    next r' s' rest' hfind2 =>
      rw [hfind] at hfind2
      obtain ⟨h1, h2, h3⟩ : r = r' ∧ p = s' ∧ rest = rest' := by
        simpa using hfind2
      subst h1
      subst h2
      subst h3
      rw [if_pos hchk, if_pos hpos, hadd]
    next hfind2 =>
      rw [hfind2] at hfind
      exact absurd hfind (by simp)

/-- Claim C8 counterexample: allocate layout `(24, 8)` from a fresh 4096-byte
region at 4096, free it, then allocate the equal-or-smaller layout
`(16, 8)` whose (normalized) alignment 8 divides the first address 4096 —
first-fit rejects the freed 24-byte head region because the leftover
(8 bytes) is nonzero but smaller than a free node (16 bytes), and the
second allocation lands at 4120, not 4096. -/
theorem C8_counterexample :
    llAlloc 24 8 [⟨4096, 4096⟩] = some (some 4096, [⟨4120, 4072⟩]) ∧
    llDealloc 4096 24 8 [⟨4120, 4072⟩] = some [⟨4096, 24⟩, ⟨4120, 4072⟩] ∧
    llAlloc 16 8 [⟨4096, 24⟩, ⟨4120, 4072⟩] =
      some (some 4120, [⟨4136, 4056⟩, ⟨4096, 24⟩]) ∧
    (16 ≤ 24 ∧ (size_align 16 8).2 ∣ 4096) ∧ (4120 : Nat) ≠ 4096 := by
  decide

/-- Claim C8, amended: allocate with `L1`, free with `L1`, allocate with
`L2`; if `L2`'s normalized size is at most `L1`'s, `L2`'s normalized
alignment is satisfied by the first address, **and the normalized-size
difference is zero or at least the free-node size (16 bytes)** — the
condition the counterexample shows is necessary — then the second
allocation is granted at the first allocation's address. -/
theorem C8_free_list_reuse (sz1 al1 sz2 al2 k1 k2 p : Nat)
    (st st1 st2 : List Region)
    (hk1 : k1 ≤ 63) (hal1 : al1 = 2 ^ k1) (hk2 : k2 ≤ 63) (hal2 : al2 = 2 ^ k2)
    (halloc : llAlloc sz1 al1 st = some (some p, st1))
    (hfree : llDealloc p sz1 al1 st1 = some st2)
    (hsz : (size_align sz2 al2).1 ≤ (size_align sz1 al1).1)
    (halign : (size_align sz2 al2).2 ∣ p)
    (hp : p + (size_align sz1 al1).1 ≤ 2 ^ 63)
    (hleft : (size_align sz1 al1).1 - (size_align sz2 al2).1 = 0 ∨
      16 ≤ (size_align sz1 al1).1 - (size_align sz2 al2).1) :
    ∃ st3, llAlloc sz2 al2 st2 = some (some p, st3) := by
  have hcons := llDealloc_some hfree
  obtain ⟨hsa2, hm2⟩ := size_align_align sz2 al2 k2 hk2 hal2
  have hs1_16 := (size_align_size sz1 al1 k1 hal1).2.1
  have hs2_8 := (size_align_size sz2 al2 k2 hal2).2.2
  have ha2le : (size_align sz2 al2).2 ≤ 2 ^ 63 := by
    rw [hsa2]
    exact Nat.pow_le_pow_right (by norm_num) (by omega)
  have h64 : (2 : Nat) ^ 63 + 2 ^ 63 = 2 ^ 64 := by norm_num
  have heq : align_up p (size_align sz2 al2).2 = p := by
    rw [hsa2] at halign ⊢
    refine align_up_eq_self p (max k2 3) (by omega) ?_ halign
    rw [← hsa2]
    omega
  have hend : Region.end_addr ⟨p, (size_align sz1 al1).1⟩ =
      p + (size_align sz1 al1).1 := rfl
  have hafr : alloc_from_region ⟨p, (size_align sz1 al1).1⟩
      (size_align sz2 al2).1 (size_align sz2 al2).2 = some p := by
    rw [alloc_from_region_some]
    refine ⟨heq.symm, ?_, ?_, ?_⟩
    · rw [heq]
      omega
    · rw [heq, hend]
      omega
    · rw [heq, hend]
      omega
  have hfind : find_region (size_align sz2 al2).1 (size_align sz2 al2).2 st2 =
      some (⟨p, (size_align sz1 al1).1⟩, p, st1) := by
    rw [hcons]
    unfold find_region
    rw [hafr]
  have hd8p : (8 : Nat) ∣ p := by
    refine dvd_trans ?_ halign
    rw [hsa2]
    have h83 : (8 : Nat) = 2 ^ 3 := by norm_num
    rw [h83]
    exact Nat.pow_dvd_pow 2 (Nat.le_max_right k2 3)
  have hchk : p + (size_align sz2 al2).1 ≤ 2 ^ 64 - 1 := by
    omega
  rcases hleft with h0 | h16
  · exact ⟨st1, (llAlloc_step hfind hchk).1 (by rw [hend]; omega)⟩
  · have hadd : add_free_region (p + (size_align sz2 al2).1)
        (Region.end_addr ⟨p, (size_align sz1 al1).1⟩ -
          (p + (size_align sz2 al2).1)) st1 =
        some (⟨p + (size_align sz2 al2).1,
          Region.end_addr ⟨p, (size_align sz1 al1).1⟩ -
            (p + (size_align sz2 al2).1)⟩ :: st1) := by
      refine add_free_region_of st1 ?_ ?_
      · refine align_up_8 _ ?_ ?_
        · exact Nat.dvd_add hd8p hs2_8
        · omega
      · rw [hend]
        omega
    exact ⟨_, (llAlloc_step hfind hchk).2 _ (by rw [hend]; omega) hadd⟩

theorem C8_witness :
    ∃ st3, llAlloc 24 8 [⟨4096, 24⟩, ⟨4120, 4072⟩] = some (some 4096, st3) :=
  C8_free_list_reuse 24 8 24 8 3 3 4096 [⟨4096, 4096⟩] [⟨4120, 4072⟩]
    [⟨4096, 24⟩, ⟨4120, 4072⟩]
    (by omega) rfl (by omega) rfl (by decide) (by decide)
    (le_refl _) (by decide) (by decide) (Or.inl (by decide))
